import Mathlib

/-!
# TrustDoc: trust-boundary SHA-256 pipeline

A shallow embedding of `enclave/enc.c` (the trusted entry point
`compute_sha256`) and `host/host.c` (`main`: ingestion, boundary call,
rendering, teardown), with the properties stated about them.

Bytes are natural numbers below 256, `size_t` values are natural numbers
reduced modulo `2^64`, a pointer is an `Option` (`none` is `NULL`) holding the
bytes of the region it addresses.
-/

namespace TrustDoc

/-! ## Digest engine (mbedtls SHA-256) -/

/-- Modelled from the spec: the eight 32-bit accumulator registers of the
`HashState` of the Digest Engine (mbedtls, a library outside `src/`). -/
structure Regs where
  a : Nat
  b : Nat
  c : Nat
  d : Nat
  e : Nat
  f : Nat
  g : Nat
  h : Nat
deriving DecidableEq, Repr

/-- Modelled from the spec: word size of the FIPS 180-4 SHA-256 primitive that
`mbedtls/sha256.h` (a library outside `src/`) provides. -/
def W32 : Nat := 4294967296

/-- Modelled from the spec: 32-bit right rotation of FIPS 180-4. -/
def rotr (x n : Nat) : Nat := ((x >>> n) ||| (x <<< (32 - n))) % W32

/-- Modelled from the spec: FIPS 180-4 function Ch. -/
def Ch (x y z : Nat) : Nat := ((x &&& y) ^^^ ((W32 - 1 - x) &&& z)) % W32

/-- Modelled from the spec: FIPS 180-4 function Maj. -/
def Maj (x y z : Nat) : Nat := (x &&& y) ^^^ (x &&& z) ^^^ (y &&& z)

/-- Modelled from the spec: FIPS 180-4 function Σ0. -/
def bigSigma0 (x : Nat) : Nat := rotr x 2 ^^^ rotr x 13 ^^^ rotr x 22

/-- Modelled from the spec: FIPS 180-4 function Σ1. -/
def bigSigma1 (x : Nat) : Nat := rotr x 6 ^^^ rotr x 11 ^^^ rotr x 25

/-- Modelled from the spec: FIPS 180-4 function σ0. -/
def smallSigma0 (x : Nat) : Nat := rotr x 7 ^^^ rotr x 18 ^^^ (x >>> 3)

/-- Modelled from the spec: FIPS 180-4 function σ1. -/
def smallSigma1 (x : Nat) : Nat := rotr x 17 ^^^ rotr x 19 ^^^ (x >>> 10)

/-- Modelled from the spec: the 64 round constants of FIPS 180-4 SHA-256. -/
def K : List Nat :=
  [1116352408, 1899447441, 3049323471, 3921009573,  -- 428a2f98 71374491 b5c0fbcf e9b5dba5
   961987163, 1508970993, 2453635748, 2870763221,  -- 3956c25b 59f111f1 923f82a4 ab1c5ed5
   3624381080, 310598401, 607225278, 1426881987,  -- d807aa98 12835b01 243185be 550c7dc3
   1925078388, 2162078206, 2614888103, 3248222580,  -- 72be5d74 80deb1fe 9bdc06a7 c19bf174
   3835390401, 4022224774, 264347078, 604807628,  -- e49b69c1 efbe4786 0fc19dc6 240ca1cc
   770255983, 1249150122, 1555081692, 1996064986,  -- 2de92c6f 4a7484aa 5cb0a9dc 76f988da
   2554220882, 2821834349, 2952996808, 3210313671,  -- 983e5152 a831c66d b00327c8 bf597fc7
   3336571891, 3584528711, 113926993, 338241895,  -- c6e00bf3 d5a79147 06ca6351 14292967
   666307205, 773529912, 1294757372, 1396182291,  -- 27b70a85 2e1b2138 4d2c6dfc 53380d13
   1695183700, 1986661051, 2177026350, 2456956037,  -- 650a7354 766a0abb 81c2c92e 92722c85
   2730485921, 2820302411, 3259730800, 3345764771,  -- a2bfe8a1 a81a664b c24b8b70 c76c51a3
   3516065817, 3600352804, 4094571909, 275423344,  -- d192e819 d6990624 f40e3585 106aa070
   430227734, 506948616, 659060556, 883997877,  -- 19a4c116 1e376c08 2748774c 34b0bcb5
   958139571, 1322822218, 1537002063, 1747873779,  -- 391c0cb3 4ed8aa4a 5b9cca4f 682e6ff3
   1955562222, 2024104815, 2227730452, 2361852424,  -- 748f82ee 78a5636f 84c87814 8cc70208
   2428436474, 2756734187, 3204031479, 3329325298]  -- 90befffa a4506ceb bef9a3f7 c67178f2

/-- Modelled from the spec: initial hash value of SHA-256 (FIPS 180-4 §5.3.3). -/
def IV256 : Regs :=
  -- 6a09e667 bb67ae85 3c6ef372 a54ff53a 510e527f 9b05688c 1f83d9ab 5be0cd19
  ⟨1779033703, 3144134277, 1013904242, 2773480762, 1359893119, 2600822924, 528734635, 1541459225⟩

/-- Modelled from the spec: initial hash value of SHA-224, selected by a
non-zero second argument of `mbedtls_sha256_starts_ret`. -/
def IV224 : Regs :=
  -- c1059ed8 367cd507 3070dd17 f70e5939 ffc00b31 68581511 64f98fa7 befa4fa4
  ⟨3238371032, 914150663, 812702999, 4144912697, 4290775857, 1750603025, 1694076839, 3204075428⟩

/-- Modelled from the spec: the sixteen big-endian words of a 64-byte block. -/
def words : List Nat → List Nat
  | b0 :: b1 :: b2 :: b3 :: rest =>
      (b0 * 16777216 + b1 * 65536 + b2 * 256 + b3) :: words rest
  | _ => []

/-- Modelled from the spec: message schedule, `n` further words appended to
the words so far (`W_t = σ1(W_{t-2}) + W_{t-7} + σ0(W_{t-15}) + W_{t-16}`). -/
def schedule : Nat → List Nat → List Nat
  | 0, w => w
  | n + 1, w =>
      let t := w.length
      schedule n (w ++ [(smallSigma1 (w.getD (t - 2) 0) + w.getD (t - 7) 0
        + smallSigma0 (w.getD (t - 15) 0) + w.getD (t - 16) 0) % W32])

/-- Modelled from the spec: one round of the SHA-256 compression function. -/
def round (r : Regs) (kw : Nat × Nat) : Regs :=
  let t1 := (r.h + bigSigma1 r.e + Ch r.e r.f r.g + kw.1 + kw.2) % W32
  let t2 := (bigSigma0 r.a + Maj r.a r.b r.c) % W32
  ⟨(t1 + t2) % W32, r.a, r.b, r.c, (r.d + t1) % W32, r.e, r.f, r.g⟩

/-- Modelled from the spec: compression of one 64-byte block into the
registers (64 rounds, then the feed-forward addition). -/
def compress (r : Regs) (block : List Nat) : Regs :=
  let s := (K.zip (schedule 48 (words block))).foldl round r
  ⟨(r.a + s.a) % W32, (r.b + s.b) % W32, (r.c + s.c) % W32, (r.d + s.d) % W32,
   (r.e + s.e) % W32, (r.f + s.f) % W32, (r.g + s.g) % W32, (r.h + s.h) % W32⟩

/-- Modelled from the spec: big-endian bytes of a 32-bit word. -/
def be32 (x : Nat) : List Nat :=
  [x / 16777216 % 256, x / 65536 % 256, x / 256 % 256, x % 256]

/-- Modelled from the spec: the 64-bit big-endian length suffix. -/
def be64 (x : Nat) : List Nat := be32 (x / W32 % W32) ++ be32 (x % W32)

/-- Modelled from the spec: big-endian serialisation of the registers. -/
def serialise (r : Regs) : List Nat :=
  be32 r.a ++ be32 r.b ++ be32 r.c ++ be32 r.d ++ be32 r.e ++ be32 r.f ++ be32 r.g ++ be32 r.h

/-- Modelled from the spec: FIPS 180-4 padding for a message of `n` bytes:
the byte `0x80`, zero bytes up to 56 modulo 64, and the bit length as a
64-bit big-endian number. -/
def padding (n : Nat) : List Nat :=
  0x80 :: (List.replicate ((119 - n % 64) % 64) 0 ++ be64 (n * 8 % 18446744073709551616))

/-- Modelled from the spec: the successive 64-byte blocks of a byte
sequence, at most `fuel` of them. -/
def blocksAux : Nat → List Nat → List (List Nat)
  | 0, _ => []
  | fuel + 1, l => if l.length = 0 then [] else l.take 64 :: blocksAux fuel (l.drop 64)

/-- Modelled from the spec: all 64-byte blocks of a byte sequence. -/
def blocks (l : List Nat) : List (List Nat) := blocksAux l.length l

/-- Modelled from the spec: the canonical one-shot SHA-256 of FIPS 180-4:
pad the whole message, parse it into blocks, compress each in turn from the
initial hash value, serialise the registers. -/
def sha256 (msg : List Nat) : List Nat :=
  serialise ((blocks (msg ++ padding msg.length)).foldl compress IV256)

/-- Modelled from the spec: `HashState` of the Digest Engine
(`mbedtls_sha256_context`): accumulator registers, unprocessed-byte residue,
total byte counter, and the SHA-224 selector. -/
structure mbedtls_sha256_context where
  state : Regs
  buffer : List Nat
  total : Nat
  is224 : Bool
deriving DecidableEq, Repr

/-- Modelled from the spec: `mbedtls_sha256_init` clears the context. -/
def mbedtls_sha256_init : mbedtls_sha256_context :=
  ⟨⟨0, 0, 0, 0, 0, 0, 0, 0⟩, [], 0, false⟩

/-- Modelled from the spec: `mbedtls_sha256_starts_ret(ctx, is224)` is the
engine's `init`: counter reset and registers loaded with the initial hash
value of SHA-256 (`is224 = 0`) or SHA-224. -/
def mbedtls_sha256_starts_ret (_ctx : mbedtls_sha256_context) (is224 : Nat) :
    mbedtls_sha256_context :=
  if is224 = 0 then ⟨IV256, [], 0, false⟩ else ⟨IV224, [], 0, true⟩

/-- Modelled from the spec: `mbedtls_sha256_update_ret` is the engine's
`update`: bytes join the residue, and every time the residue holds a whole
64-byte block that block is compressed into the registers. -/
def mbedtls_sha256_update_ret (ctx : mbedtls_sha256_context) :
    List Nat → mbedtls_sha256_context
  | [] => ctx
  | x :: xs =>
      if (ctx.buffer ++ [x]).length = 64 then
        mbedtls_sha256_update_ret
          ⟨compress ctx.state (ctx.buffer ++ [x]), [], ctx.total + 1, ctx.is224⟩ xs
      else
        mbedtls_sha256_update_ret
          ⟨ctx.state, ctx.buffer ++ [x], ctx.total + 1, ctx.is224⟩ xs

/-- Modelled from the spec: `mbedtls_sha256_finish_ret` is the engine's
`finish`: the residue is padded from the byte counter, the last one or two
blocks are compressed, and the registers are written out big-endian (32
bytes, or 28 for SHA-224). -/
def mbedtls_sha256_finish_ret (ctx : mbedtls_sha256_context) : List Nat :=
  let out := serialise ((blocks (ctx.buffer ++ padding ctx.total)).foldl compress ctx.state)
  if ctx.is224 then out.take 28 else out

/-! ## Trusted entry point (`enclave/enc.c`) -/

/-- Calls into the digest engine, in the order they are made. -/
inductive EngineOp where
  | init
  | starts (is224 : Nat)
  | update (len : Nat)
  | finish
  | free
deriving DecidableEq, Repr

/-- What a call of the entry point hands back and leaves behind: the value it
returns to its caller (`none`: the function is `void`, each of its `return`s is
without a value), the contents of the output slot (`none` when the pointer is
`NULL`) and the engine calls made. -/
structure EcallEffect where
  ret : Option Nat
  hash : Option (List Nat)
  ops : List EngineOp
deriving DecidableEq, Repr

/-- Store `bytes` into a memory region starting at offset `off`. -/
def write_bytes (region : List Nat) (off : Nat) (bytes : List Nat) : List Nat :=
  region.take off ++ bytes ++ region.drop (off + bytes.length)

/-- The function `compute_sha256` of `enc.c`, lines 5-19. -/
def compute_sha256 (data : Option (List Nat)) (data_size : Nat)
    (hash : Option (List Nat)) (hash_size : Nat) : EcallEffect :=
  if data = none ∨ hash = none ∨ hash_size < 32 ∨ data_size = 0 then
    ⟨none, hash, []⟩
  else if hash_size < 32 then
    ⟨none, hash, []⟩
  else
    match data, hash with
    | some d, some out =>
        let ctx := mbedtls_sha256_init
        let ctx := mbedtls_sha256_starts_ret ctx 0
        let ctx := mbedtls_sha256_update_ret ctx (d.take data_size)
        ⟨none, some (write_bytes out 0 (mbedtls_sha256_finish_ret ctx)),
          [.init, .starts 0, .update data_size, .finish, .free]⟩
    | _, _ => ⟨none, hash, []⟩

/-! ## Boundary call as the host sees it -/

/-- The status `OE_OK` of `oe_result_t`. -/
def OE_OK : Nat := 0

/-- Outcome of the host-side call `compute_sha256(enclave, ...)`. -/
structure BoundaryResult where
  status : Nat
  hash : Option (List Nat)
  ops : List EngineOp
deriving DecidableEq, Repr

/-- Modelled from the spec: the host-side stub of the boundary call, generated
from the interface description, is not under `src/`; this is the gateway of
spec 4.2. A crossing that fails gives its transport status
(`BoundaryCallFailure`) and the trusted entry point does not run. Otherwise the
entry point runs: when the arguments violate a trusted-side precondition the
caller gets the status `rejected` and the slot without a write, else `OE_OK`
and the slot as the entry point left it. The spec names the status of a
rejected call `InvalidArguments`; the entry point under `src/` is `void` and
hands the stub no status, so the value reported is a parameter. -/
def boundary_call (transport rejected : Nat) (data : Option (List Nat)) (data_size : Nat)
    (hash : Option (List Nat)) (hash_size : Nat) : BoundaryResult :=
  if transport = OE_OK then
    let r := compute_sha256 data data_size hash hash_size
    if data = none ∨ hash = none ∨ hash_size < 32 ∨ data_size = 0 then
      ⟨rejected, r.hash, r.ops⟩
    else
      ⟨OE_OK, r.hash, r.ops⟩
  else
    ⟨transport, hash, []⟩

/-! ## Host (`host/host.c`) -/

/-- Number of values of `size_t` (64-bit). -/
def SIZE_MOD : Nat := 18446744073709551616

/-- Subtraction of `size_t` values. -/
def sz_sub (a b : Nat) : Nat := (a + SIZE_MOD - b) % SIZE_MOD

/-- Standard input: the bytes still to come, and for the next calls of
`fread` how many bytes each one delivers at most (a call beyond the schedule
delivers as much as it can; a scheduled 0 is a read that returns nothing). -/
structure Stream where
  pending : List Nat
  sched : List Nat
deriving DecidableEq, Repr

/-- One call `fread(ptr, 1, request, stdin)`: the bytes delivered (never more
than requested, never more than the stream holds) and the stream afterwards. -/
def fread (request : Nat) (s : Stream) : List Nat × Stream :=
  let n := match s.sched with
    | [] => request
    | k :: _ => min k request
  (s.pending.take n, ⟨s.pending.drop n, s.sched.tail⟩)

/-- The locals `buffer`, `total_size`, `capacity` of `main`. -/
structure InputBuffer where
  buffer : List Nat
  total_size : Nat
  capacity : Nat
deriving DecidableEq, Repr

/-- Observations of the read loop: a call of `fread` at `buffer + offset`
asking for `request` bytes and returning `count` while the buffer holds
`capacity` bytes, and an execution of `capacity *= 2`. -/
inductive LoopEvent where
  | read (offset request count capacity : Nat)
  | double (total_size old_capacity new_capacity : Nat)
deriving DecidableEq, Repr

/-- Outcome of the read loop: the locals at exit, the capacity at which
`realloc` failed if it did, and the observations. -/
structure LoopResult where
  final : InputBuffer
  realloc_failed : Option Nat
  log : List LoopEvent
deriving DecidableEq, Repr

/-- Contents of `n` bytes of freshly allocated memory starting at position
`base` of the region: indeterminate, given by `junk`. -/
def fresh (junk : Nat → Nat) (base : Nat) : Nat → List Nat
  | 0 => []
  | n + 1 => junk base :: fresh junk (base + 1) n

/-- A successful `realloc(buffer, capacity)`: the old bytes are kept, the rest
is indeterminate. -/
def realloc (junk : Nat → Nat) (buffer : List Nat) (capacity : Nat) : List Nat :=
  buffer.take capacity ++ fresh junk buffer.length (capacity - buffer.length)

/-- The locals with which `main` enters the read loop (lines 13, 14, 34). -/
def initial_buffer (junk : Nat → Nat) : InputBuffer := ⟨fresh junk 0 4096, 0, 4096⟩

/-- Outcome of the growth check: the locals afterwards, whether the capacity
was doubled, and whether `realloc` returned `NULL`. -/
structure Checked where
  st : InputBuffer
  doubled : Bool
  realloc_failed : Bool
deriving DecidableEq, Repr

/-- Lines 46-56 of `host.c`: the growth check made after each read that
returned bytes. -/
def grow_check (realloc_ok : Nat → Bool) (junk : Nat → Nat) (st : InputBuffer) : Checked :=
  if st.total_size ≥ sz_sub st.capacity 1024 then
    let capacity := st.capacity * 2 % SIZE_MOD
    if realloc_ok capacity then
      ⟨⟨realloc junk st.buffer capacity, st.total_size, capacity⟩, true, false⟩
    else
      ⟨⟨st.buffer, st.total_size, capacity⟩, true, true⟩
  else
    ⟨st, false, false⟩

/-- Add observations in front of a loop outcome. -/
def LoopResult.after (evs : List LoopEvent) (r : LoopResult) : LoopResult :=
  { r with log := evs ++ r.log }

/-- How one pass of the `while` of lines 42-57 ends: the loop is left with an
outcome, or it goes round again with the rest of the stream, the new locals
and the observations of this pass. -/
inductive Pass where
  | exit (r : LoopResult)
  | again (s : Stream) (st : InputBuffer) (evs : List LoopEvent)
deriving DecidableEq, Repr

/-- One pass of the `while` of `host.c`, lines 42-57: the read in the loop
condition, then the body. -/
def loop_pass (realloc_ok : Nat → Bool) (junk : Nat → Nat) (s : Stream)
    (st : InputBuffer) : Pass :=
  let request := sz_sub st.capacity st.total_size
  let got := (fread request s).1
  let bytes_read := got.length
  let ev := LoopEvent.read st.total_size request bytes_read st.capacity
  if bytes_read > 0 then
    let st1 : InputBuffer := ⟨write_bytes st.buffer st.total_size got,
      (st.total_size + bytes_read) % SIZE_MOD, st.capacity⟩
    let c := grow_check realloc_ok junk st1
    let evs := if c.doubled then
        [ev, .double st1.total_size st1.capacity c.st.capacity]
      else [ev]
    if c.realloc_failed then
      .exit ⟨c.st, some c.st.capacity, evs⟩
    else
      .again (fread request s).2 c.st evs
  else
    .exit ⟨st, none, [ev]⟩

/-- The loop of `host.c`, lines 42-57, run for at most `fuel` passes; `none`
when the fuel ends before the loop does. -/
def stdin_loop (realloc_ok : Nat → Bool) (junk : Nat → Nat) :
    Nat → Stream → InputBuffer → Option LoopResult
  | 0, _, _ => none
  | fuel + 1, s, st =>
      match loop_pass realloc_ok junk s st with
      | .exit r => some r
      | .again s1 st1 evs =>
          (stdin_loop realloc_ok junk fuel s1 st1).map (LoopResult.after evs)

/-- What a run of `main` does that can be seen from outside, in order. -/
inductive Event where
  | stderr (text : String)
  | stdout (text : List Char)
  | oe_create_enclave (result : Nat)
  | oe_terminate_enclave
  | ecall (data : List Nat) (data_size : Nat) (status : Nat)
  | free
  | fclose
deriving DecidableEq, Repr

/-- A finished run: the value `main` returns and what it did. -/
structure Run where
  exit_code : Nat
  trace : List Event
deriving DecidableEq, Repr

/-- Everything `main` takes from outside: its arguments (`argc`, `argv`), the
results of the library and system calls it makes (`create_result` of
`oe_create_trustdoc_enclave`, whether the one `malloc` and each `realloc`
return non-null, the results of `fopen`, `fseek`, `ftell`, the bytes `fread`
delivers from the file, standard input, the status `transport` of the boundary
crossing and the status `rejected_status` the stub reports for a call the
trusted side rejects, `oe_result_str`), and the indeterminate contents of memory it does
not initialise (`junk` on the heap, `stack_hash` for the 32 bytes of
`hash[32]`). -/
structure Env where
  argc : Nat
  argv0 : String
  argv1 : String
  create_result : Nat
  malloc_ok : Bool
  realloc_ok : Nat → Bool
  junk : Nat → Nat
  stdin : Stream
  fopen_ok : Bool
  fseek_end : Int
  ftell : Int
  fseek_set : Int
  file_bytes : List Nat
  transport : Nat
  rejected_status : Nat
  stack_hash : List Nat
  oe_result_str : Nat → String

/-- A hexadecimal digit as `printf` writes it for `x`. -/
def hex_digit (n : Nat) : Char :=
  "0123456789abcdef".toList.getD n '0'

/-- The text of `printf("%02x", v)` for a `uint8_t` value. -/
def fmt_02x (v : Nat) : List Char :=
  [hex_digit (v % 256 / 16), hex_digit (v % 256 % 16)]

/-- Lines 135-139 of `host.c`: one `printf` per byte of `hash[32]`, then one
for the newline. -/
def print_hash (hash : List Nat) : List Event :=
  (List.range 32).map (fun i => Event.stdout (fmt_02x (hash.getD i 0)))
    ++ [Event.stdout ['\n']]

/-- Everything written to standard output in a trace. -/
def stdout_text : List Event → List Char
  | [] => []
  | .stdout t :: evs => t ++ stdout_text evs
  | _ :: evs => stdout_text evs

/-- Everything written to standard error in a trace, one entry per call. -/
def stderr_lines : List Event → List String
  | [] => []
  | .stderr t :: evs => t :: stderr_lines evs
  | _ :: evs => stderr_lines evs

/-- Arguments of the boundary calls made in a trace. -/
def ecalls : List Event → List (List Nat × Nat)
  | [] => []
  | .ecall d n _ :: evs => (d, n) :: ecalls evs
  | _ :: evs => ecalls evs

/-- Number of calls of `oe_terminate_enclave` in a trace. -/
def terminate_count (evs : List Event) : Nat :=
  evs.count Event.oe_terminate_enclave

/-- Lines 122-143 of `host.c`: the boundary call on the ingested buffer, then
rendering and teardown. `pre` is what the run did before. -/
def hash_and_print (e : Env) (buffer : List Nat) (total_size : Nat)
    (pre : List Event) : Run :=
  let r := boundary_call e.transport e.rejected_status (some buffer) total_size
    (some e.stack_hash) 32
  let call := Event.ecall (buffer.take total_size) total_size r.status
  if r.status ≠ OE_OK then
    ⟨1, pre ++ [call, .free,
      .stderr ("Failed to compute SHA256: " ++ e.oe_result_str r.status ++ "\n"),
      .oe_terminate_enclave]⟩
  else
    ⟨0, pre ++ [call, .free] ++ print_hash (r.hash.getD []) ++ [.oe_terminate_enclave]⟩

/-- Lines 33-64 of `host.c`: ingestion from standard input. `none` only if
the read loop does not end within its fuel. -/
def read_stdin (e : Env) (pre : List Event) : Option (Run ⊕ InputBuffer) :=
  if ¬ e.malloc_ok then
    some (.inl ⟨1, pre ++ [.stderr "Initial memory allocation failed\n",
      .oe_terminate_enclave]⟩)
  else
    match stdin_loop e.realloc_ok e.junk (e.stdin.pending.length + 1) e.stdin
        (initial_buffer e.junk) with
    | none => none
    | some r =>
        match r.realloc_failed with
        | some capacity =>
            some (.inl ⟨1, pre ++ [.stderr ("Memory reallocation failed at "
              ++ toString capacity ++ " bytes\n"), .free, .oe_terminate_enclave]⟩)
        | none =>
            if r.final.total_size = 0 then
              some (.inl ⟨1, pre ++ [.stderr "No data read from stdin\n", .free,
                .oe_terminate_enclave]⟩)
            else
              some (.inr r.final)

/-- Lines 67-119 of `host.c`: ingestion from the named file. -/
def read_file (e : Env) (pre : List Event) : Run ⊕ InputBuffer :=
  if ¬ e.fopen_ok then
    .inl ⟨1, pre ++ [.stderr ("Cannot open file: " ++ e.argv1 ++ "\n"),
      .oe_terminate_enclave]⟩
  else if e.fseek_end ≠ 0 then
    .inl ⟨1, pre ++ [.stderr "Failed to seek to end of file\n", .fclose,
      .oe_terminate_enclave]⟩
  else
    let file_size := e.ftell
    if file_size < 0 then
      .inl ⟨1, pre ++ [.stderr "Failed to get file size\n", .fclose,
        .oe_terminate_enclave]⟩
    else if e.fseek_set ≠ 0 then
      .inl ⟨1, pre ++ [.stderr "Failed to seek to beginning of file\n", .fclose,
        .oe_terminate_enclave]⟩
    else
      let total_size := file_size.toNat % SIZE_MOD
      if ¬ e.malloc_ok then
        .inl ⟨1, pre ++ [.stderr ("Memory allocation failed for " ++ toString total_size
          ++ " bytes\n"), .fclose, .oe_terminate_enclave]⟩
      else
        let got := e.file_bytes.take total_size
        let buffer := write_bytes (fresh e.junk 0 total_size) 0 got
        let bytes_read := got.length
        if bytes_read ≠ total_size then
          .inl ⟨1, pre ++ [.fclose, .stderr ("Failed to read entire file: read "
            ++ toString bytes_read ++ " of " ++ toString total_size ++ " bytes\n"),
            .free, .oe_terminate_enclave]⟩
        else
          .inr ⟨buffer, total_size, 4096⟩

/-- The function `main` of `host.c`. `none` only if the read loop does not
end within its fuel. -/
def main (e : Env) : Option Run :=
  if e.argc ≠ 2 then
    some ⟨1, [.stderr ("Usage: " ++ e.argv0 ++ " <file_path|-> \n"),
      .stderr "Use '-' to read from stdin\n"]⟩
  else
    let result := e.create_result
    if result ≠ OE_OK then
      some ⟨1, [.oe_create_enclave result,
        .stderr ("Failed to create enclave: " ++ e.oe_result_str result ++ "\n")]⟩
    else
      let pre := [Event.oe_create_enclave result]
      if e.argv1 = "-" then
        match read_stdin e pre with
        | none => none
        | some (.inl run) => some run
        | some (.inr st) => some (hash_and_print e st.buffer st.total_size pre)
      else
        match read_file e pre with
        | .inl run => some run
        | .inr st => some (hash_and_print e st.buffer st.total_size (pre ++ [.fclose]))

end TrustDoc

namespace TrustDoc

/-- What the growth invariant asks of one observation: a read starts at an
offset within the buffer, asks for the room that is left, and what it
delivers ends within the buffer; after a doubling the length is within the
capacity. -/
def LoopEvent.in_bounds : LoopEvent → Prop
  | .read offset request count capacity =>
      offset ≤ capacity ∧ request = capacity - offset ∧ count ≤ request
        ∧ offset + count ≤ capacity
  | .double total_size old_capacity new_capacity =>
      total_size ≤ old_capacity ∧ total_size ≤ new_capacity

instance (ev : LoopEvent) : Decidable ev.in_bounds := by
  cases ev <;> unfold LoopEvent.in_bounds <;> infer_instance

/-- The doubling observed did not overflow `size_t`. -/
def LoopEvent.no_overflow : LoopEvent → Prop
  | .read _ _ _ _ => True
  | .double _ old_capacity _ => old_capacity * 2 < SIZE_MOD

instance (ev : LoopEvent) : Decidable ev.no_overflow := by
  cases ev <;> unfold LoopEvent.no_overflow <;> infer_instance

/-- The locals of the read loop are consistent: the length is within the
capacity, the buffer holds `capacity` bytes, and the capacity is a `size_t`
not below its initial value. -/
def InputBuffer.consistent (st : InputBuffer) : Prop :=
  st.total_size ≤ st.capacity ∧ st.buffer.length = st.capacity ∧ 4096 ≤ st.capacity
    ∧ st.capacity < SIZE_MOD

instance (st : InputBuffer) : Decidable st.consistent := by
  unfold InputBuffer.consistent
  infer_instance

/-- Value of a lowercase hexadecimal digit (16 for any other character). -/
def unhex (c : Char) : Nat := "0123456789abcdef".toList.indexOf c

/-- Decoding of a text of two hexadecimal digits per byte. -/
def decode_hex : List Char → List Nat
  | hi :: lo :: rest => (unhex hi * 16 + unhex lo) :: decode_hex rest
  | _ => []

/-- A finished run tore the context down exactly once, as the last thing it
did. -/
def torn_down_once (run : Run) : Prop :=
  terminate_count run.trace = 1 ∧ run.trace.getLast? = some Event.oe_terminate_enclave

instance (run : Run) : Decidable (torn_down_once run) := by
  unfold torn_down_once
  infer_instance

/-! ## Concrete runs used below -/

/-- The three bytes of the text abc. -/
def abc : List Nat := [0x61, 0x62, 0x63]

/-- A run on a named file that exists and is empty: every call succeeds,
`ftell` reports 0, `malloc(0)` returns a non-null pointer (as glibc does), the
boundary crossing succeeds, a call the void entry point rejects comes back
with `OE_OK`, and `hash[32]` starts out as 32 bytes `0xee`. -/
def empty_file_env : Env :=
  { argc := 2, argv0 := "trustdoc_host", argv1 := "empty.bin", create_result := 0,
    malloc_ok := true, realloc_ok := fun _ => true, junk := fun _ => 0,
    stdin := ⟨[], []⟩, fopen_ok := true, fseek_end := 0, ftell := 0, fseek_set := 0,
    file_bytes := [], transport := 0, rejected_status := 0, stack_hash := List.replicate 32 0xee,
    oe_result_str := fun _ => "OE_FAILURE" }

/-- A run on standard input that delivers the text abc in reads of 2 and 1
bytes. -/
def abc_stdin_env : Env :=
  { empty_file_env with argv1 := "-", stdin := ⟨abc, [2]⟩ }

/-- The run `e` with standard input selected and delivering the bytes `b`
under the read schedule `sched`. -/
def with_stdin (e : Env) (b sched : List Nat) : Env :=
  { e with argv1 := "-", stdin := ⟨b, sched⟩ }

/-- The run `e` with the named file `path` selected, the file holding the
bytes `b` and every call on it succeeding. -/
def with_file (e : Env) (path : String) (b : List Nat) : Env :=
  { e with argv1 := path, fopen_ok := true, fseek_end := 0, ftell := b.length,
           fseek_set := 0, file_bytes := b }

end TrustDoc

namespace TrustDoc

/-! ## The digest engine computes the canonical SHA-256 -/

theorem blocksAux_fuel (n : Nat) : ∀ (m : Nat) (l : List Nat),
    l.length ≤ n → l.length ≤ m → blocksAux n l = blocksAux m l := by
  induction n with
  | zero =>
      intro m l hn _
      have hl : l.length = 0 := by omega
      cases m <;> simp [blocksAux, hl]
  | succ n ih =>
      intro m l hn hm
      cases m with
      | zero =>
          have hl : l.length = 0 := by omega
          simp [blocksAux, hl]
      | succ m =>
          by_cases hl : l.length = 0
          · simp [blocksAux, hl]
          · simp only [blocksAux, hl, if_false]
            rw [ih m (l.drop 64) (by simp; omega) (by simp; omega)]

theorem blocks_append (p l : List Nat) (hp : p.length = 64) :
    blocks (p ++ l) = p :: blocks l := by
  unfold blocks
  have hlen : (p ++ l).length = l.length + 63 + 1 := by simp [hp]; omega
  rw [hlen, blocksAux]
  have h0 : ¬ (p ++ l).length = 0 := by omega
  simp only [h0, if_false]
  have ht : (p ++ l).take 64 = p := by
    rw [← hp]; simp
  have hd : (p ++ l).drop 64 = l := by
    rw [← hp]; simp
  rw [ht, hd, blocksAux_fuel (l.length + 63) l.length l (by omega) (by omega)]

theorem update_fold (xs : List Nat) : ∀ (ctx : mbedtls_sha256_context) (pad : List Nat),
    (blocks ((mbedtls_sha256_update_ret ctx xs).buffer ++ pad)).foldl compress
        (mbedtls_sha256_update_ret ctx xs).state
      = (blocks (ctx.buffer ++ xs ++ pad)).foldl compress ctx.state
    ∧ (mbedtls_sha256_update_ret ctx xs).total = ctx.total + xs.length
    ∧ (mbedtls_sha256_update_ret ctx xs).is224 = ctx.is224 := by
  induction xs with
  | nil => intro ctx pad; simp [mbedtls_sha256_update_ret]
  | cons x xs ih =>
      intro ctx pad
      by_cases h : (ctx.buffer ++ [x]).length = 64
      · rw [mbedtls_sha256_update_ret, if_pos h]
        obtain ⟨h1, h2, h3⟩ := ih ⟨compress ctx.state (ctx.buffer ++ [x]), [], ctx.total + 1,
          ctx.is224⟩ pad
        refine ⟨?_, ?_, h3⟩
        · rw [h1]
          have : ctx.buffer ++ x :: xs ++ pad = (ctx.buffer ++ [x]) ++ (xs ++ pad) := by simp
          rw [this, blocks_append _ _ h]
          simp
        · rw [h2]; simp; omega
      · rw [mbedtls_sha256_update_ret, if_neg h]
        obtain ⟨h1, h2, h3⟩ := ih ⟨ctx.state, ctx.buffer ++ [x], ctx.total + 1, ctx.is224⟩ pad
        refine ⟨?_, ?_, h3⟩
        · rw [h1]; simp
        · rw [h2]; simp; omega

theorem engine_sha256 (msg : List Nat) :
    mbedtls_sha256_finish_ret
        (mbedtls_sha256_update_ret (mbedtls_sha256_starts_ret mbedtls_sha256_init 0) msg)
      = sha256 msg := by
  have hs : mbedtls_sha256_starts_ret mbedtls_sha256_init 0 = ⟨IV256, [], 0, false⟩ := by
    simp [mbedtls_sha256_starts_ret]
  obtain ⟨h1, h2, h3⟩ := update_fold msg ⟨IV256, [], 0, false⟩ (padding msg.length)
  simp only [Nat.zero_add, List.nil_append] at h1 h2 h3
  rw [hs]
  unfold mbedtls_sha256_finish_ret sha256
  rw [h3, h2, h1]
  simp

theorem be32_length (x : Nat) : (be32 x).length = 4 := rfl

theorem serialise_length (r : Regs) : (serialise r).length = 32 := by
  simp [serialise, be32_length]

theorem sha256_length (msg : List Nat) : (sha256 msg).length = 32 := by
  simp [sha256, serialise_length]

/-! ## Trusted entry point -/

theorem compute_sha256_reject (data : Option (List Nat)) (data_size : Nat)
    (hash : Option (List Nat)) (hash_size : Nat)
    (h : data = none ∨ hash = none ∨ hash_size < 32 ∨ data_size = 0) :
    compute_sha256 data data_size hash hash_size = ⟨none, hash, []⟩ := by
  unfold compute_sha256
  rw [if_pos h]

theorem compute_sha256_accept (d : List Nat) (data_size : Nat) (out : List Nat)
    (hash_size : Nat) (hcap : 32 ≤ hash_size) (hsize : data_size ≠ 0) :
    compute_sha256 (some d) data_size (some out) hash_size
      = ⟨none, some (sha256 (d.take data_size) ++ out.drop 32),
          [.init, .starts 0, .update data_size, .finish, .free]⟩ := by
  unfold compute_sha256
  have h1 : ¬ ((some d : Option (List Nat)) = none ∨ (some out : Option (List Nat)) = none
      ∨ hash_size < 32 ∨ data_size = 0) := by
    simp; omega
  have h2 : ¬ hash_size < 32 := by omega
  rw [if_neg h1, if_neg h2]
  simp only [engine_sha256, write_bytes, List.take_zero, List.nil_append, Nat.zero_add,
    sha256_length]

/-- C1: for every non-empty byte sequence `b` and every non-null output slot
whose stated capacity is at least 32, `compute_sha256(b, |b|, hash, hash_size)`
makes the engine calls init, starts(0), one update over the whole buffer,
finish, free, and leaves in `hash[0..32)` the canonical SHA-256 of `b`; for the
text abc that digest is ba7816bf...f20015ad. -/
theorem compute_sha256_digest (b out : List Nat) (hash_size : Nat) (hb : b ≠ [])
    (hcap : 32 ≤ hash_size) :
    (∃ out', (compute_sha256 (some b) b.length (some out) hash_size).hash = some out'
        ∧ out'.take 32 = sha256 b)
    ∧ (compute_sha256 (some b) b.length (some out) hash_size).ops
        = [.init, .starts 0, .update b.length, .finish, .free]
    ∧ sha256 abc =
        [0xba, 0x78, 0x16, 0xbf, 0x8f, 0x01, 0xcf, 0xea, 0x41, 0x41, 0x40, 0xde, 0x5d, 0xae,
         0x22, 0x23, 0xb0, 0x03, 0x61, 0xa3, 0x96, 0x17, 0x7a, 0x9c, 0xb4, 0x10, 0xff, 0x61,
         0xf2, 0x00, 0x15, 0xad] := by
  have hne : b.length ≠ 0 := by
    intro h0
    exact hb (List.length_eq_zero.mp h0)
  rw [compute_sha256_accept b b.length out hash_size hcap hne]
  refine ⟨⟨_, rfl, ?_⟩, rfl, by decide⟩
  rw [List.take_length, List.take_left' (sha256_length b)]

/-- Witness of C1 at the text abc and a 32-byte slot. -/
theorem compute_sha256_digest_witness :
    abc ≠ [] ∧ 32 ≤ 32 ∧
    (∃ out', (compute_sha256 (some abc) abc.length (some (List.replicate 32 0)) 32).hash
        = some out' ∧ out'.take 32 = sha256 abc) :=
  ⟨by decide, by decide,
    (compute_sha256_digest abc (List.replicate 32 0) 32 (by decide) (by decide)).1⟩

theorem compute_sha256_ret (data : Option (List Nat)) (data_size : Nat)
    (hash : Option (List Nat)) (hash_size : Nat) :
    (compute_sha256 data data_size hash hash_size).ret = none := by
  unfold compute_sha256
  split_ifs
  · rfl
  · rfl
  · cases data <;> cases hash <;> rfl

/-- C2, amended: for every boundary call whose arguments violate a
trusted-side precondition, the trusted entry point `compute_sha256` returns at
once and returns no status: it hands its caller no value (it is `void`), as
every call of it does, having made no engine call and left the output slot as
it was. -/
theorem rejected_call_returns_no_status (data : Option (List Nat)) (data_size : Nat)
    (hash : Option (List Nat)) (hash_size : Nat)
    (h : data = none ∨ hash = none ∨ hash_size < 32 ∨ data_size = 0) :
    (compute_sha256 data data_size hash hash_size).ret = none
    ∧ (compute_sha256 data data_size hash hash_size).hash = hash
    ∧ (compute_sha256 data data_size hash hash_size).ops = []
    ∧ ∀ d n out m, (compute_sha256 d n out m).ret
        = (compute_sha256 data data_size hash hash_size).ret := by
  refine ⟨compute_sha256_ret _ _ _ _, ?_, ?_, ?_⟩
  · rw [compute_sha256_reject data data_size hash hash_size h]
  · rw [compute_sha256_reject data data_size hash hash_size h]
  · intro d n out m
    rw [compute_sha256_ret, compute_sha256_ret]

/-- Witness of the amended C2 at an output capacity of 31. -/
theorem rejected_call_returns_no_status_witness :
    (compute_sha256 (some abc) 3 (some (List.replicate 31 0)) 31).ret = none
    ∧ (compute_sha256 (some abc) 3 (some (List.replicate 31 0)) 31).hash
        = some (List.replicate 31 0)
    ∧ (compute_sha256 (some abc) 3 (some (List.replicate 31 0)) 31).ops = [] :=
  have h := rejected_call_returns_no_status (some abc) 3 (some (List.replicate 31 0)) 31
    (Or.inr (Or.inr (Or.inl (by decide))))
  ⟨h.1, h.2.1, h.2.2.1⟩

/-- C2 fails as stated: a call with output capacity 31 returns no status at
all, and a call with input length 0 on a slot that holds the digest of the
text abc hands back exactly what the successful call on abc does, the same
(absent) return value and the same slot. -/
theorem rejected_call_like_success :
    (compute_sha256 (some abc) 3 (some (List.replicate 31 0)) 31).ret = none
    ∧ (compute_sha256 (some []) 0 (some (sha256 abc)) 32).ret
        = (compute_sha256 (some abc) 3 (some (sha256 abc)) 32).ret
    ∧ (compute_sha256 (some []) 0 (some (sha256 abc)) 32).hash
        = (compute_sha256 (some abc) 3 (some (sha256 abc)) 32).hash := by
  decide

/-- C3: with `data` null, `hash` null, `hash_size < 32` or `data_size = 0`,
`compute_sha256` makes no engine call and leaves the output slot as it was;
with valid arguments and a slot of `hash_size` bytes it overwrites exactly
`hash[0..32)` (with the 32-byte digest) and leaves `hash[32..hash_size)` and
the size of the slot as they were. -/
theorem compute_sha256_frame (data : Option (List Nat)) (data_size : Nat)
    (hash : Option (List Nat)) (hash_size : Nat) :
    ((data = none ∨ hash = none ∨ hash_size < 32 ∨ data_size = 0) →
      (compute_sha256 data data_size hash hash_size).ops = []
      ∧ (compute_sha256 data data_size hash hash_size).hash = hash)
    ∧ (∀ d out, data = some d → hash = some out → out.length = hash_size →
        32 ≤ hash_size → data_size ≠ 0 →
        ∃ out', (compute_sha256 data data_size hash hash_size).hash = some out'
          ∧ out' = write_bytes out 0 (sha256 (d.take data_size))
          ∧ (sha256 (d.take data_size)).length = 32
          ∧ out'.length = hash_size
          ∧ out'.drop 32 = out.drop 32
          ∧ ∀ i, 32 ≤ i → out'.getD i 0 = out.getD i 0) := by
  constructor
  · intro h
    rw [compute_sha256_reject data data_size hash hash_size h]
    exact ⟨rfl, rfl⟩
  · intro d out hd hh hlen hcap hsize
    subst hd hh
    rw [compute_sha256_accept d data_size out hash_size hcap hsize]
    have hl := sha256_length (d.take data_size)
    refine ⟨_, rfl, ?_, hl, ?_, ?_, ?_⟩
    · simp [write_bytes, hl]
    · simp [hl]; omega
    · rw [List.drop_left' hl]
    · intro i hi
      simp only [List.getD_eq_getElem?_getD]
      rw [List.getElem?_append_right (by omega), hl, List.getElem?_drop]
      congr 2
      omega

/-- Witness of C3: a rejected call (capacity 31) and an accepted one (abc
into a 40-byte slot). -/
theorem compute_sha256_frame_witness :
    ((compute_sha256 (some abc) 3 (some (List.replicate 31 7)) 31).ops = []
      ∧ (compute_sha256 (some abc) 3 (some (List.replicate 31 7)) 31).hash
          = some (List.replicate 31 7))
    ∧ (∃ out', (compute_sha256 (some abc) 3 (some (List.replicate 40 7)) 40).hash = some out'
          ∧ out' = write_bytes (List.replicate 40 7) 0 (sha256 (abc.take 3))
          ∧ (sha256 (abc.take 3)).length = 32
          ∧ out'.length = 40
          ∧ out'.drop 32 = (List.replicate 40 7).drop 32
          ∧ ∀ i, 32 ≤ i → out'.getD i 0 = (List.replicate 40 7).getD i 0) :=
  ⟨(compute_sha256_frame (some abc) 3 (some (List.replicate 31 7)) 31).1
      (Or.inr (Or.inr (Or.inl (by decide)))),
    (compute_sha256_frame (some abc) 3 (some (List.replicate 40 7)) 40).2 abc
      (List.replicate 40 7) rfl rfl (by decide) (by decide) (by decide)⟩

/-! ## Rendering of the digest -/

theorem stdout_text_append (a b : List Event) :
    stdout_text (a ++ b) = stdout_text a ++ stdout_text b := by
  induction a with
  | nil => rfl
  | cons ev a ih => cases ev <;> simp [stdout_text, ih]

theorem stdout_text_map (f : Nat → List Char) (l : List Nat) :
    stdout_text (l.map (fun i => Event.stdout (f i))) = l.flatMap f := by
  induction l with
  | nil => rfl
  | cons x l ih => simp [stdout_text, ih]

theorem range_map_getD (d : List Nat) :
    (List.range d.length).map (fun i => d.getD i 0) = d := by
  apply List.ext_getElem
  · simp
  · intro n h1 h2
    simp [List.getD_eq_getElem?_getD, List.getElem?_eq_getElem h2]

theorem print_hash_stdout (d : List Nat) (hlen : d.length = 32) :
    stdout_text (print_hash d) = d.flatMap fmt_02x ++ ['\n'] := by
  unfold print_hash
  rw [stdout_text_append, stdout_text_map (fun i => fmt_02x (d.getD i 0))]
  have h := range_map_getD d
  rw [hlen] at h
  have h2 : (List.range 32).flatMap (fun i => fmt_02x (d.getD i 0))
      = ((List.range 32).map (fun i => d.getD i 0)).flatMap fmt_02x := by
    rw [List.flatMap_map]
  rw [h2, h]
  rfl

theorem hex_cons (x : Nat) (d : List Nat) :
    (x :: d).flatMap fmt_02x
      = hex_digit (x % 256 / 16) :: hex_digit (x % 256 % 16) :: d.flatMap fmt_02x := by
  rw [List.flatMap_cons]
  rfl

theorem hex_length (d : List Nat) : (d.flatMap fmt_02x).length = 2 * d.length := by
  induction d with
  | nil => rfl
  | cons x d ih => rw [hex_cons]; simp [ih]; omega

theorem hex_index (d : List Nat) : ∀ i, i < d.length →
    (d.flatMap fmt_02x).getD (2 * i) ' ' = hex_digit (d.getD i 0 % 256 / 16)
    ∧ (d.flatMap fmt_02x).getD (2 * i + 1) ' ' = hex_digit (d.getD i 0 % 256 % 16) := by
  induction d with
  | nil => intro i hi; simp at hi
  | cons x d ih =>
      intro i hi
      cases i with
      | zero => rw [hex_cons]; exact ⟨rfl, rfl⟩
      | succ i =>
          have hi2 : i < d.length := by simpa using hi
          have e1 : 2 * (i + 1) = 2 * i + 1 + 1 := by omega
          obtain ⟨h1, h2⟩ := ih i hi2
          rw [e1, hex_cons]
          simp only [List.getD_cons_succ]
          exact ⟨h1, h2⟩

theorem hex_digit_mem : ∀ n, n < 16 → hex_digit n ∈ "0123456789abcdef".toList := by
  decide

theorem unhex_hex_digit : ∀ n, n < 16 → unhex (hex_digit n) = n := by
  decide

theorem decode_hex_fmt (d : List Nat) (hbyte : ∀ x ∈ d, x < 256) :
    decode_hex (d.flatMap fmt_02x) = d := by
  induction d with
  | nil => rfl
  | cons x d ih =>
      have hx : x < 256 := hbyte x (by simp)
      have hd : ∀ y ∈ d, y < 256 := fun y hy => hbyte y (by simp [hy])
      rw [hex_cons, decode_hex]
      rw [ih hd, unhex_hex_digit _ (by omega), unhex_hex_digit _ (by omega)]
      congr 1
      omega

/-- C9: for every 32-byte digest `d`, what the host prints on success is 65
characters: 64 characters from `0-9a-f`, of which numbers `2i` and `2i+1` are
the high and the low hexadecimal digit of `d[i]`, then one newline; and
decoding the 64 digits gives `d` back. -/
theorem print_hash_format (d : List Nat) (hlen : d.length = 32) (hbyte : ∀ x ∈ d, x < 256) :
    (stdout_text (print_hash d)).length = 65
    ∧ (∀ i, i < 64 → (stdout_text (print_hash d)).getD i ' ' ∈ "0123456789abcdef".toList)
    ∧ (∀ i, i < 32 →
        (stdout_text (print_hash d)).getD (2 * i) ' ' = hex_digit (d.getD i 0 / 16)
        ∧ (stdout_text (print_hash d)).getD (2 * i + 1) ' ' = hex_digit (d.getD i 0 % 16))
    ∧ (stdout_text (print_hash d)).getD 64 ' ' = '\n'
    ∧ decode_hex ((stdout_text (print_hash d)).take 64) = d := by
  have hl : (d.flatMap fmt_02x).length = 64 := by rw [hex_length, hlen]
  have hget : ∀ j, j < 64 → (stdout_text (print_hash d)).getD j ' '
      = (d.flatMap fmt_02x).getD j ' ' := by
    intro j hj
    rw [print_hash_stdout d hlen]
    simp only [List.getD_eq_getElem?_getD]
    rw [List.getElem?_append_left (by omega)]
  have hb : ∀ i, i < 32 → d.getD i 0 < 256 := by
    intro i hi
    have hi2 : i < d.length := by omega
    rw [List.getD_eq_getElem?_getD, List.getElem?_eq_getElem hi2]
    exact hbyte _ (List.getElem_mem hi2)
  have hidx : ∀ i, i < 32 →
      (stdout_text (print_hash d)).getD (2 * i) ' ' = hex_digit (d.getD i 0 / 16)
      ∧ (stdout_text (print_hash d)).getD (2 * i + 1) ' ' = hex_digit (d.getD i 0 % 16) := by
    intro i hi
    obtain ⟨h1, h2⟩ := hex_index d i (by omega)
    rw [hget _ (by omega), hget _ (by omega), h1, h2, Nat.mod_eq_of_lt (hb i hi)]
    exact ⟨rfl, rfl⟩
  refine ⟨?_, ?_, hidx, ?_, ?_⟩
  · rw [print_hash_stdout d hlen]; simp [hl]
  · intro j hj
    have hi : j / 2 < 32 := by omega
    obtain ⟨h1, h2⟩ := hidx (j / 2) hi
    rcases Nat.mod_two_eq_zero_or_one j with h | h
    · have e : j = 2 * (j / 2) := by omega
      rw [e, h1]
      exact hex_digit_mem _ (by have := hb _ hi; omega)
    · have e : j = 2 * (j / 2) + 1 := by omega
      rw [e, h2]
      exact hex_digit_mem _ (by omega)
  · rw [print_hash_stdout d hlen]
    simp only [List.getD_eq_getElem?_getD]
    rw [List.getElem?_append_right (by omega), hl]
    rfl
  · rw [print_hash_stdout d hlen, List.take_left' hl]
    exact decode_hex_fmt d hbyte

/-- Witness of C9 at the digest of the text abc. -/
theorem print_hash_format_witness :
    (sha256 abc).length = 32 ∧ (∀ x ∈ sha256 abc, x < 256)
    ∧ (stdout_text (print_hash (sha256 abc))).length = 65
    ∧ decode_hex ((stdout_text (print_hash (sha256 abc))).take 64) = sha256 abc :=
  have h := print_hash_format (sha256 abc) (by decide) (by decide)
  ⟨by decide, by decide, h.1, h.2.2.2.2⟩

/-! ## The read loop -/

theorem sz_sub_eq (a b : Nat) (hb : b ≤ a) (ha : a < SIZE_MOD) : sz_sub a b = a - b := by
  unfold sz_sub SIZE_MOD at *
  omega

theorem fread_length_le (request : Nat) (s : Stream) :
    (fread request s).1.length ≤ request := by
  unfold fread
  cases s.sched with
  | nil => simp
  | cons k ks => simp

theorem fread_append (request : Nat) (s : Stream) :
    (fread request s).1 ++ (fread request s).2.pending = s.pending := by
  unfold fread
  simp

theorem fread_pending_length (request : Nat) (s : Stream) :
    (fread request s).1.length + (fread request s).2.pending.length = s.pending.length := by
  have h := congrArg List.length (fread_append request s)
  simpa using h

theorem fread_sched (request : Nat) (s : Stream) :
    (fread request s).2.sched = s.sched.tail := rfl

theorem fread_nothing (request : Nat) (s : Stream) (hreq : 0 < request)
    (hs : ∀ k ∈ s.sched, 0 < k) (h0 : (fread request s).1.length = 0) : s.pending = [] := by
  unfold fread at h0
  cases hsched : s.sched with
  | nil =>
      rw [hsched] at h0
      simp at h0
      rcases h0 with h | h
      · omega
      · exact h
  | cons k ks =>
      rw [hsched] at h0
      have hk : 0 < k := hs k (by rw [hsched]; simp)
      simp at h0
      rcases h0 with h | h
      · omega
      · rcases h with h | h
        · omega
        · exact h

theorem stdin_loop_exit (realloc_ok : Nat → Bool) (junk : Nat → Nat) (fuel : Nat)
    (s : Stream) (st : InputBuffer) (r : LoopResult)
    (h : loop_pass realloc_ok junk s st = .exit r) :
    stdin_loop realloc_ok junk (fuel + 1) s st = some r := by
  rw [stdin_loop, h]

theorem stdin_loop_again (realloc_ok : Nat → Bool) (junk : Nat → Nat) (fuel : Nat)
    (s : Stream) (st : InputBuffer) (s1 : Stream) (st1 : InputBuffer) (evs : List LoopEvent)
    (h : loop_pass realloc_ok junk s st = .again s1 st1 evs) :
    stdin_loop realloc_ok junk (fuel + 1) s st
      = (stdin_loop realloc_ok junk fuel s1 st1).map (LoopResult.after evs) := by
  rw [stdin_loop, h]

theorem loop_pass_again_stream (realloc_ok : Nat → Bool) (junk : Nat → Nat)
    (s : Stream) (st : InputBuffer) (s1 : Stream) (st1 : InputBuffer) (evs : List LoopEvent)
    (h : loop_pass realloc_ok junk s st = .again s1 st1 evs) :
    s1 = (fread (sz_sub st.capacity st.total_size) s).2
    ∧ 0 < (fread (sz_sub st.capacity st.total_size) s).1.length := by
  unfold loop_pass at h
  simp only at h
  split_ifs at h with h1 h2
  · simp only [Pass.again.injEq] at h
    exact ⟨h.1.symm, h1⟩
  · simp only [Pass.again.injEq] at h
    exact ⟨h.1.symm, h1⟩

theorem stdin_loop_total (realloc_ok : Nat → Bool) (junk : Nat → Nat) (fuel : Nat) :
    ∀ (s : Stream) (st : InputBuffer), s.pending.length < fuel →
      ∃ r, stdin_loop realloc_ok junk fuel s st = some r := by
  induction fuel with
  | zero => intro s st h; omega
  | succ fuel ih =>
      intro s st h
      cases hp : loop_pass realloc_ok junk s st with
      | exit r => exact ⟨r, stdin_loop_exit _ _ _ _ _ _ hp⟩
      | again s1 st1 evs =>
          obtain ⟨hs, hpos⟩ := loop_pass_again_stream _ _ _ _ _ _ _ hp
          have hlen := fread_pending_length (sz_sub st.capacity st.total_size) s
          obtain ⟨r, hr⟩ := ih s1 st1 (by rw [hs]; omega)
          exact ⟨LoopResult.after evs r, by rw [stdin_loop_again _ _ _ _ _ _ _ _ hp, hr]; rfl⟩

theorem write_bytes_length (buf got : List Nat) (off : Nat)
    (h : off + got.length ≤ buf.length) : (write_bytes buf off got).length = buf.length := by
  unfold write_bytes
  simp
  omega

theorem write_bytes_take (buf got : List Nat) (off : Nat) (h : off ≤ buf.length) :
    (write_bytes buf off got).take (off + got.length) = buf.take off ++ got := by
  unfold write_bytes
  have hl : (buf.take off ++ got).length = off + got.length := by simp; omega
  rw [List.take_left' hl]

theorem fresh_length (junk : Nat → Nat) (n : Nat) :
    ∀ base, (fresh junk base n).length = n := by
  induction n with
  | zero => intro base; rfl
  | succ n ih => intro base; simp [fresh, ih]

theorem fresh_consistent (junk : Nat → Nat) (total_size capacity : Nat)
    (h1 : total_size ≤ capacity) (h3 : 4096 ≤ capacity) (h4 : capacity < SIZE_MOD) :
    (InputBuffer.mk (fresh junk 0 capacity) total_size capacity).consistent :=
  ⟨h1, fresh_length junk capacity 0, h3, h4⟩

theorem realloc_length (junk : Nat → Nat) (buf : List Nat) (capacity : Nat)
    (h : buf.length ≤ capacity) : (realloc junk buf capacity).length = capacity := by
  unfold realloc
  simp [fresh_length]
  omega

theorem realloc_take (junk : Nat → Nat) (buf : List Nat) (capacity n : Nat)
    (h : buf.length ≤ capacity) (hn : n ≤ buf.length) :
    (realloc junk buf capacity).take n = buf.take n := by
  unfold realloc
  rw [List.take_of_length_le h, List.take_append_of_le_length hn]

theorem loop_pass_cases (realloc_ok : Nat → Bool) (junk : Nat → Nat) (s : Stream)
    (st : InputBuffer) (hinv : st.consistent) :
    ((fread (st.capacity - st.total_size) s).1.length = 0
      ∧ loop_pass realloc_ok junk s st
        = .exit ⟨st, none,
            [.read st.total_size (st.capacity - st.total_size) 0 st.capacity]⟩)
    ∨ (0 < (fread (st.capacity - st.total_size) s).1.length
      ∧ st.total_size + (fread (st.capacity - st.total_size) s).1.length < st.capacity - 1024
      ∧ loop_pass realloc_ok junk s st
        = .again (fread (st.capacity - st.total_size) s).2
            ⟨write_bytes st.buffer st.total_size (fread (st.capacity - st.total_size) s).1,
              st.total_size + (fread (st.capacity - st.total_size) s).1.length, st.capacity⟩
            [.read st.total_size (st.capacity - st.total_size)
              (fread (st.capacity - st.total_size) s).1.length st.capacity])
    ∨ (0 < (fread (st.capacity - st.total_size) s).1.length
      ∧ st.capacity - 1024 ≤ st.total_size + (fread (st.capacity - st.total_size) s).1.length
      ∧ realloc_ok (st.capacity * 2 % SIZE_MOD) = true
      ∧ loop_pass realloc_ok junk s st
        = .again (fread (st.capacity - st.total_size) s).2
            ⟨realloc junk
                (write_bytes st.buffer st.total_size (fread (st.capacity - st.total_size) s).1)
                (st.capacity * 2 % SIZE_MOD),
              st.total_size + (fread (st.capacity - st.total_size) s).1.length,
              st.capacity * 2 % SIZE_MOD⟩
            [.read st.total_size (st.capacity - st.total_size)
              (fread (st.capacity - st.total_size) s).1.length st.capacity,
             .double (st.total_size + (fread (st.capacity - st.total_size) s).1.length)
              st.capacity (st.capacity * 2 % SIZE_MOD)])
    ∨ (0 < (fread (st.capacity - st.total_size) s).1.length
      ∧ st.capacity - 1024 ≤ st.total_size + (fread (st.capacity - st.total_size) s).1.length
      ∧ realloc_ok (st.capacity * 2 % SIZE_MOD) = false
      ∧ loop_pass realloc_ok junk s st
        = .exit ⟨⟨write_bytes st.buffer st.total_size
                (fread (st.capacity - st.total_size) s).1,
              st.total_size + (fread (st.capacity - st.total_size) s).1.length,
              st.capacity * 2 % SIZE_MOD⟩,
            some (st.capacity * 2 % SIZE_MOD),
            [.read st.total_size (st.capacity - st.total_size)
              (fread (st.capacity - st.total_size) s).1.length st.capacity,
             .double (st.total_size + (fread (st.capacity - st.total_size) s).1.length)
              st.capacity (st.capacity * 2 % SIZE_MOD)]⟩) := by
  obtain ⟨h1, h2, h3, h4⟩ := hinv
  have hreq : sz_sub st.capacity st.total_size = st.capacity - st.total_size :=
    sz_sub_eq _ _ h1 h4
  have h1024 : sz_sub st.capacity 1024 = st.capacity - 1024 := sz_sub_eq _ _ (by omega) h4
  have hle := fread_length_le (st.capacity - st.total_size) s
  have hmod : (st.total_size + (fread (st.capacity - st.total_size) s).1.length) % SIZE_MOD
      = st.total_size + (fread (st.capacity - st.total_size) s).1.length :=
    Nat.mod_eq_of_lt (by omega)
  unfold loop_pass grow_check
  simp only [hreq, hmod, h1024]
  by_cases hz : (fread (st.capacity - st.total_size) s).1.length = 0
  · left
    refine ⟨hz, ?_⟩
    simp [hz]
  · right
    have hpos : 0 < (fread (st.capacity - st.total_size) s).1.length := by omega
    by_cases hnear : st.capacity - 1024
        ≤ st.total_size + (fread (st.capacity - st.total_size) s).1.length
    · right
      cases hre : realloc_ok (st.capacity * 2 % SIZE_MOD)
      · right
        refine ⟨hpos, hnear, rfl, ?_⟩
        simp [hpos, hnear, hre]
      · left
        refine ⟨hpos, hnear, rfl, ?_⟩
        simp [hpos, hnear, hre]
    · left
      refine ⟨hpos, by omega, ?_⟩
      simp [hpos, hnear]

theorem read_in_bounds (offset count capacity : Nat) (h : offset + count ≤ capacity) :
    (LoopEvent.read offset (capacity - offset) count capacity).in_bounds :=
  ⟨by omega, rfl, by omega, h⟩

theorem double_in_bounds (total_size old_capacity new_capacity : Nat)
    (h1 : total_size ≤ old_capacity) (h2 : total_size ≤ new_capacity) :
    (LoopEvent.double total_size old_capacity new_capacity).in_bounds :=
  ⟨h1, h2⟩

theorem stdin_loop_bounds (realloc_ok : Nat → Bool) (junk : Nat → Nat) (fuel : Nat) :
    ∀ (s : Stream) (st : InputBuffer) (r : LoopResult),
      stdin_loop realloc_ok junk fuel s st = some r → st.consistent →
      (∀ ev ∈ r.log, ev.no_overflow) →
      (∀ ev ∈ r.log, ev.in_bounds) ∧ r.final.total_size ≤ r.final.capacity
        ∧ (r.realloc_failed = none → r.final.buffer.length = r.final.capacity) := by
  induction fuel with
  | zero => intro s st r h; simp [stdin_loop] at h
  | succ fuel ih =>
      intro s st r hrun hinv hno
      have hle := fread_length_le (st.capacity - st.total_size) s
      obtain ⟨h1, h2, h3, h4⟩ := hinv
      have hwlen := write_bytes_length st.buffer (fread (st.capacity - st.total_size) s).1
        st.total_size (by omega)
      rcases loop_pass_cases realloc_ok junk s st ⟨h1, h2, h3, h4⟩ with
        ⟨hz, hp⟩ | ⟨hpos, hfar, hp⟩ | ⟨hpos, hnear, hre, hp⟩ | ⟨hpos, hnear, hre, hp⟩
      · rw [stdin_loop_exit _ _ _ _ _ _ hp] at hrun
        cases hrun
        refine ⟨?_, h1, fun _ => h2⟩
        intro ev hev
        simp only [List.mem_singleton] at hev
        subst hev
        exact read_in_bounds _ _ _ (by omega)
      · rw [stdin_loop_again _ _ _ _ _ _ _ _ hp] at hrun
        cases hrec : stdin_loop realloc_ok junk fuel (fread (st.capacity - st.total_size) s).2
            ⟨write_bytes st.buffer st.total_size (fread (st.capacity - st.total_size) s).1,
              st.total_size + (fread (st.capacity - st.total_size) s).1.length, st.capacity⟩ with
        | none => rw [hrec] at hrun; simp at hrun
        | some r1 =>
            rw [hrec] at hrun
            simp only [Option.map_some', Option.some.injEq] at hrun
            subst hrun
            simp only [LoopResult.after, List.singleton_append, List.mem_cons] at hno ⊢
            obtain ⟨hb, hf, hc⟩ := ih _ _ r1 hrec ⟨by show st.total_size + _ ≤ st.capacity; omega,
              by show (write_bytes _ _ _).length = st.capacity; omega, h3, h4⟩ (fun ev hev => hno ev (Or.inr hev))
            refine ⟨?_, hf, hc⟩
            intro ev hev
            rcases hev with hev | hev
            · subst hev
              exact read_in_bounds _ _ _ (by omega)
            · exact hb ev hev
      · rw [stdin_loop_again _ _ _ _ _ _ _ _ hp] at hrun
        cases hrec : stdin_loop realloc_ok junk fuel (fread (st.capacity - st.total_size) s).2
            ⟨realloc junk
                (write_bytes st.buffer st.total_size (fread (st.capacity - st.total_size) s).1)
                (st.capacity * 2 % SIZE_MOD),
              st.total_size + (fread (st.capacity - st.total_size) s).1.length,
              st.capacity * 2 % SIZE_MOD⟩ with
        | none => rw [hrec] at hrun; simp at hrun
        | some r1 =>
            rw [hrec] at hrun
            simp only [Option.map_some', Option.some.injEq] at hrun
            subst hrun
            simp only [LoopResult.after, List.cons_append, List.nil_append, List.mem_cons]
              at hno ⊢
            have hov := hno _ (Or.inr (Or.inl rfl))
            simp only [LoopEvent.no_overflow] at hov
            have hdbl : st.capacity * 2 % SIZE_MOD = st.capacity * 2 := Nat.mod_eq_of_lt hov
            have hrl := realloc_length junk
              (write_bytes st.buffer st.total_size (fread (st.capacity - st.total_size) s).1)
              (st.capacity * 2 % SIZE_MOD) (by omega)
            obtain ⟨hb, hf, hc⟩ := ih _ _ r1 hrec
              ⟨by show st.total_size + _ ≤ st.capacity * 2 % SIZE_MOD; rw [hdbl]; omega, hrl,
                by show 4096 ≤ st.capacity * 2 % SIZE_MOD; rw [hdbl]; omega,
                Nat.mod_lt _ (by decide)⟩
              (fun ev hev => hno ev (Or.inr (Or.inr hev)))
            refine ⟨?_, hf, hc⟩
            intro ev hev
            rcases hev with hev | hev | hev
            · subst hev
              exact read_in_bounds _ _ _ (by omega)
            · subst hev
              exact double_in_bounds _ _ _ (by omega) (by omega)
            · exact hb ev hev
      · rw [stdin_loop_exit _ _ _ _ _ _ hp] at hrun
        cases hrun
        simp only [List.mem_cons, List.mem_singleton] at hno ⊢
        have hov := hno _ (Or.inr (Or.inl rfl))
        simp only [LoopEvent.no_overflow] at hov
        have hdbl : st.capacity * 2 % SIZE_MOD = st.capacity * 2 := Nat.mod_eq_of_lt hov
        refine ⟨?_, by rw [hdbl]; omega, fun h => by simp at h⟩
        intro ev hev
        rcases hev with hev | hev | hev
        · subst hev
          exact read_in_bounds _ _ _ (by omega)
        · subst hev
          exact double_in_bounds _ _ _ (by omega) (by omega)
        · simp at hev

theorem stdin_loop_no_overflow (realloc_ok : Nat → Bool) (junk : Nat → Nat) (fuel : Nat) :
    ∀ (s : Stream) (st : InputBuffer) (r : LoopResult),
      stdin_loop realloc_ok junk fuel s st = some r → st.consistent →
      2 * (st.total_size + s.pending.length) + 2048 < SIZE_MOD →
      ∀ ev ∈ r.log, ev.no_overflow := by
  induction fuel with
  | zero => intro s st r h; simp [stdin_loop] at h
  | succ fuel ih =>
      intro s st r hrun hinv hsize
      have hle := fread_length_le (st.capacity - st.total_size) s
      have hlen := fread_pending_length (st.capacity - st.total_size) s
      obtain ⟨h1, h2, h3, h4⟩ := hinv
      have hwlen := write_bytes_length st.buffer (fread (st.capacity - st.total_size) s).1
        st.total_size (by omega)
      rcases loop_pass_cases realloc_ok junk s st ⟨h1, h2, h3, h4⟩ with
        ⟨hz, hp⟩ | ⟨hpos, hfar, hp⟩ | ⟨hpos, hnear, hre, hp⟩ | ⟨hpos, hnear, hre, hp⟩
      · rw [stdin_loop_exit _ _ _ _ _ _ hp] at hrun
        cases hrun
        intro ev hev
        simp only [List.mem_singleton] at hev
        subst hev
        trivial
      · rw [stdin_loop_again _ _ _ _ _ _ _ _ hp] at hrun
        cases hrec : stdin_loop realloc_ok junk fuel (fread (st.capacity - st.total_size) s).2
            ⟨write_bytes st.buffer st.total_size (fread (st.capacity - st.total_size) s).1,
              st.total_size + (fread (st.capacity - st.total_size) s).1.length, st.capacity⟩ with
        | none => rw [hrec] at hrun; simp at hrun
        | some r1 =>
            rw [hrec] at hrun
            simp only [Option.map_some', Option.some.injEq] at hrun
            subst hrun
            simp only [LoopResult.after, List.singleton_append, List.mem_cons]
            have hb := ih _ _ r1 hrec ⟨by show st.total_size + _ ≤ st.capacity; omega,
              by show (write_bytes _ _ _).length = st.capacity; omega, h3, h4⟩
              (by show 2 * (st.total_size + _ + _) + 2048 < SIZE_MOD; omega)
            intro ev hev
            rcases hev with hev | hev
            · subst hev
              trivial
            · exact hb ev hev
      · have hdbl : st.capacity * 2 % SIZE_MOD = st.capacity * 2 :=
          Nat.mod_eq_of_lt (by omega)
        rw [stdin_loop_again _ _ _ _ _ _ _ _ hp] at hrun
        cases hrec : stdin_loop realloc_ok junk fuel (fread (st.capacity - st.total_size) s).2
            ⟨realloc junk
                (write_bytes st.buffer st.total_size (fread (st.capacity - st.total_size) s).1)
                (st.capacity * 2 % SIZE_MOD),
              st.total_size + (fread (st.capacity - st.total_size) s).1.length,
              st.capacity * 2 % SIZE_MOD⟩ with
        | none => rw [hrec] at hrun; simp at hrun
        | some r1 =>
            rw [hrec] at hrun
            simp only [Option.map_some', Option.some.injEq] at hrun
            subst hrun
            simp only [LoopResult.after, List.cons_append, List.nil_append, List.mem_cons]
            have hrl := realloc_length junk
              (write_bytes st.buffer st.total_size (fread (st.capacity - st.total_size) s).1)
              (st.capacity * 2 % SIZE_MOD) (by omega)
            have hb := ih _ _ r1 hrec
              ⟨by show st.total_size + _ ≤ st.capacity * 2 % SIZE_MOD; rw [hdbl]; omega, hrl,
                by show 4096 ≤ st.capacity * 2 % SIZE_MOD; rw [hdbl]; omega,
                Nat.mod_lt _ (by decide)⟩
              (by show 2 * (st.total_size + _ + _) + 2048 < SIZE_MOD; omega)
            intro ev hev
            rcases hev with hev | hev | hev
            · subst hev
              trivial
            · subst hev
              show st.capacity * 2 < SIZE_MOD
              omega
            · exact hb ev hev
      · rw [stdin_loop_exit _ _ _ _ _ _ hp] at hrun
        cases hrun
        intro ev hev
        simp only [List.mem_cons, List.mem_singleton] at hev
        rcases hev with hev | hev | hev
        · subst hev
          trivial
        · subst hev
          show st.capacity * 2 < SIZE_MOD
          omega
        · simp at hev

theorem stdin_loop_collects (realloc_ok : Nat → Bool) (junk : Nat → Nat)
    (hre : ∀ c, realloc_ok c = true) (fuel : Nat) :
    ∀ (s : Stream) (st : InputBuffer) (r : LoopResult),
      stdin_loop realloc_ok junk fuel s st = some r → st.consistent →
      st.total_size + 1024 < st.capacity → (∀ k ∈ s.sched, 0 < k) →
      2 * (st.total_size + s.pending.length) + 2048 < SIZE_MOD →
      r.realloc_failed = none ∧ r.final.total_size = st.total_size + s.pending.length
        ∧ r.final.buffer.take r.final.total_size = st.buffer.take st.total_size ++ s.pending := by
  induction fuel with
  | zero => intro s st r h; simp [stdin_loop] at h
  | succ fuel ih =>
      intro s st r hrun hinv hroom hsched hsize
      have hle := fread_length_le (st.capacity - st.total_size) s
      have hlen := fread_pending_length (st.capacity - st.total_size) s
      have happ := fread_append (st.capacity - st.total_size) s
      have hsched1 : ∀ k ∈ (fread (st.capacity - st.total_size) s).2.sched, 0 < k := by
        intro k hk
        rw [fread_sched] at hk
        exact hsched k (List.mem_of_mem_tail hk)
      obtain ⟨h1, h2, h3, h4⟩ := hinv
      have hwlen := write_bytes_length st.buffer (fread (st.capacity - st.total_size) s).1
        st.total_size (by omega)
      have hwtake := write_bytes_take st.buffer (fread (st.capacity - st.total_size) s).1
        st.total_size (by omega)
      rcases loop_pass_cases realloc_ok junk s st ⟨h1, h2, h3, h4⟩ with
        ⟨hz, hp⟩ | ⟨hpos, hfar, hp⟩ | ⟨hpos, hnear, _, hp⟩ | ⟨hpos, hnear, hfail, hp⟩
      · rw [stdin_loop_exit _ _ _ _ _ _ hp] at hrun
        cases hrun
        have hnil := fread_nothing (st.capacity - st.total_size) s (by omega) hsched hz
        refine ⟨rfl, ?_, ?_⟩
        · show st.total_size = _
          rw [hnil]; rfl
        · show st.buffer.take st.total_size = _
          rw [hnil]; simp
      · rw [stdin_loop_again _ _ _ _ _ _ _ _ hp] at hrun
        cases hrec : stdin_loop realloc_ok junk fuel (fread (st.capacity - st.total_size) s).2
            ⟨write_bytes st.buffer st.total_size (fread (st.capacity - st.total_size) s).1,
              st.total_size + (fread (st.capacity - st.total_size) s).1.length, st.capacity⟩ with
        | none => rw [hrec] at hrun; simp at hrun
        | some r1 =>
            rw [hrec] at hrun
            simp only [Option.map_some', Option.some.injEq] at hrun
            subst hrun
            obtain ⟨ha, hb, hc⟩ := ih _ _ r1 hrec
              ⟨by show st.total_size + _ ≤ st.capacity; omega,
                by show (write_bytes _ _ _).length = st.capacity; omega, h3, h4⟩
              (by show st.total_size + _ + 1024 < st.capacity; omega) hsched1
              (by show 2 * (st.total_size + _ + _) + 2048 < SIZE_MOD; omega)
            simp only at hb hc
            refine ⟨ha, ?_, ?_⟩
            · show r1.final.total_size = _
              omega
            · show r1.final.buffer.take r1.final.total_size = _
              rw [hc, hwtake, List.append_assoc, happ]
      · have hdbl : st.capacity * 2 % SIZE_MOD = st.capacity * 2 :=
          Nat.mod_eq_of_lt (by omega)
        rw [stdin_loop_again _ _ _ _ _ _ _ _ hp] at hrun
        cases hrec : stdin_loop realloc_ok junk fuel (fread (st.capacity - st.total_size) s).2
            ⟨realloc junk
                (write_bytes st.buffer st.total_size (fread (st.capacity - st.total_size) s).1)
                (st.capacity * 2 % SIZE_MOD),
              st.total_size + (fread (st.capacity - st.total_size) s).1.length,
              st.capacity * 2 % SIZE_MOD⟩ with
        | none => rw [hrec] at hrun; simp at hrun
        | some r1 =>
            rw [hrec] at hrun
            simp only [Option.map_some', Option.some.injEq] at hrun
            subst hrun
            have hrl := realloc_length junk
              (write_bytes st.buffer st.total_size (fread (st.capacity - st.total_size) s).1)
              (st.capacity * 2 % SIZE_MOD) (by omega)
            have hrt := realloc_take junk
              (write_bytes st.buffer st.total_size (fread (st.capacity - st.total_size) s).1)
              (st.capacity * 2 % SIZE_MOD)
              (st.total_size + (fread (st.capacity - st.total_size) s).1.length)
              (by omega) (by omega)
            obtain ⟨ha, hb, hc⟩ := ih _ _ r1 hrec
              ⟨by show st.total_size + _ ≤ st.capacity * 2 % SIZE_MOD; rw [hdbl]; omega, hrl,
                by show 4096 ≤ st.capacity * 2 % SIZE_MOD; rw [hdbl]; omega,
                Nat.mod_lt _ (by decide)⟩
              (by show st.total_size + _ + 1024 < st.capacity * 2 % SIZE_MOD; rw [hdbl]; omega)
              hsched1
              (by show 2 * (st.total_size + _ + _) + 2048 < SIZE_MOD; omega)
            simp only at hb hc
            refine ⟨ha, ?_, ?_⟩
            · show r1.final.total_size = _
              omega
            · show r1.final.buffer.take r1.final.total_size = _
              rw [hc, hrt, hwtake, List.append_assoc, happ]
      · rw [hre] at hfail
        cases hfail

theorem initial_buffer_consistent (junk : Nat → Nat) : (initial_buffer junk).consistent :=
  fresh_consistent junk 0 4096 (by decide) (by decide) (by decide)

/-- C5: on the unbounded-stream path, whatever the reads return (any count
from 0 to the count requested), the loop ends, and if no doubling overflows
`size_t` then every read starts at `total_size <= capacity`, asks for
`capacity - total_size` bytes and stores what it gets within
`[total_size, capacity)`, `total_size <= capacity` holds after every doubling
and at the end, and the buffer holds `capacity` bytes. -/
theorem growth_invariant (realloc_ok : Nat → Bool) (junk : Nat → Nat) (s : Stream)
    (hno : ∀ r, stdin_loop realloc_ok junk (s.pending.length + 1) s (initial_buffer junk)
      = some r → ∀ ev ∈ r.log, ev.no_overflow) :
    ∃ r, stdin_loop realloc_ok junk (s.pending.length + 1) s (initial_buffer junk) = some r
      ∧ (∀ ev ∈ r.log, ev.in_bounds)
      ∧ r.final.total_size ≤ r.final.capacity
      ∧ (r.realloc_failed = none → r.final.buffer.length = r.final.capacity) := by
  obtain ⟨r, hr⟩ := stdin_loop_total realloc_ok junk (s.pending.length + 1) s
    (initial_buffer junk) (by omega)
  exact ⟨r, hr, stdin_loop_bounds realloc_ok junk _ s _ r hr (initial_buffer_consistent junk)
    (hno r hr)⟩

theorem replicate_size_ok (junk : Nat → Nat) (n x : Nat) (sched : List Nat)
    (h : 2 * n + 2048 < SIZE_MOD) :
    2 * ((initial_buffer junk).total_size
      + (Stream.mk (List.replicate n x) sched).pending.length) + 2048 < SIZE_MOD := by
  simp only [initial_buffer, List.length_replicate]
  omega

/-- Witness of C5: a stream of 5000 bytes, delivered as 1000 bytes and then
as much as each read asks for. -/
theorem growth_invariant_witness :
    ∃ r, stdin_loop (fun _ => true) (fun _ => 0) ((List.replicate 5000 7).length + 1)
        ⟨List.replicate 5000 7, [1000]⟩ (initial_buffer (fun _ => 0)) = some r
      ∧ (∀ ev ∈ r.log, ev.in_bounds)
      ∧ r.final.total_size ≤ r.final.capacity
      ∧ (r.realloc_failed = none → r.final.buffer.length = r.final.capacity) :=
  growth_invariant (fun _ => true) (fun _ => 0) ⟨List.replicate 5000 7, [1000]⟩
    (fun r hr => stdin_loop_no_overflow _ _ _ _ _ r hr (initial_buffer_consistent _)
      (replicate_size_ok _ 5000 7 [1000] (by decide)))

/-- C10, amended: the growth check made after each read that returned bytes
(so before each read after the first), on consistent locals, doubles the
capacity if and only if the headroom `capacity - total_size` is at most 1024
bytes, and otherwise changes nothing; in particular it doubles when the
headroom is exactly 1024. -/
theorem grow_check_policy (realloc_ok : Nat → Bool) (junk : Nat → Nat) (st : InputBuffer)
    (hinv : st.consistent) :
    ((grow_check realloc_ok junk st).doubled = true ↔ st.capacity - st.total_size ≤ 1024)
    ∧ ((grow_check realloc_ok junk st).doubled = true →
        (grow_check realloc_ok junk st).st.capacity = st.capacity * 2 % SIZE_MOD
        ∧ (grow_check realloc_ok junk st).st.total_size = st.total_size)
    ∧ ((grow_check realloc_ok junk st).doubled = false → (grow_check realloc_ok junk st).st = st)
    ∧ (st.capacity - st.total_size = 1024 → (grow_check realloc_ok junk st).doubled = true) := by
  obtain ⟨h1, h2, h3, h4⟩ := hinv
  have h1024 : sz_sub st.capacity 1024 = st.capacity - 1024 := sz_sub_eq _ _ (by omega) h4
  refine ⟨?_, ?_, ?_, ?_⟩
  all_goals
    unfold grow_check
    rw [h1024]
    by_cases hnear : st.total_size ≥ st.capacity - 1024
    · rw [if_pos hnear]
      cases hre : realloc_ok (st.capacity * 2 % SIZE_MOD) <;> simp [hre] <;> omega
    · rw [if_neg hnear]
      simp
      try omega

/-- Witness of the amended C10: 3072 bytes ingested at the initial capacity
4096, headroom exactly 1024. -/
theorem grow_check_policy_witness :
    (grow_check (fun _ => true) (fun _ => 0) ⟨fresh (fun _ => 0) 0 4096, 3072, 4096⟩).doubled
      = true :=
  (grow_check_policy (fun _ => true) (fun _ => 0) ⟨fresh (fun _ => 0) 0 4096, 3072, 4096⟩
    (fresh_consistent _ 3072 4096 (by decide) (by decide) (by decide))).2.2.2 (by decide)

/-- C10 fails as stated: with 3072 bytes ingested at capacity 4096 the
headroom is exactly 1024, which is not below 1024, and the capacity is
doubled all the same. -/
theorem grow_check_doubles_at_1024 :
    ¬ (4096 - 3072 < 1024)
    ∧ (grow_check (fun _ => true) (fun _ => 0) ⟨fresh (fun _ => 0) 0 4096, 3072, 4096⟩).doubled
        = true
    ∧ (grow_check (fun _ => true) (fun _ => 0)
        ⟨fresh (fun _ => 0) 0 4096, 3072, 4096⟩).st.capacity = 8192 := by
  decide

/-! ## Runs of `main` -/

theorem terminate_count_print_hash (hash : List Nat) :
    terminate_count (print_hash hash) = 0 := by
  simp [terminate_count, print_hash, List.count_eq_zero]

theorem getLast_snoc (l : List Event) (x : Event) : (l ++ [x]).getLast? = some x := by
  simp

theorem terminate_count_append (a b : List Event) :
    terminate_count (a ++ b) = terminate_count a + terminate_count b := by
  simp [terminate_count]

theorem hash_and_print_torn_down (e : Env) (buffer : List Nat) (total_size : Nat)
    (pre : List Event) (hpre : terminate_count pre = 0) :
    torn_down_once (hash_and_print e buffer total_size pre) := by
  unfold hash_and_print torn_down_once
  dsimp only
  split_ifs with h
  · constructor
    · simp only [terminate_count_append, hpre]
      simp [terminate_count]
    · simp [List.getLast?_append]
  · constructor
    · simp only [terminate_count_append, hpre, terminate_count_print_hash]
      simp [terminate_count]
    · exact getLast_snoc _ _

theorem read_stdin_torn_down (e : Env) (pre : List Event) (hpre : terminate_count pre = 0) :
    ∃ x, read_stdin e pre = some x ∧ ∀ run, x = .inl run → torn_down_once run := by
  unfold read_stdin
  by_cases hm : e.malloc_ok = true
  · obtain ⟨r, hr⟩ := stdin_loop_total e.realloc_ok e.junk (e.stdin.pending.length + 1)
      e.stdin (initial_buffer e.junk) (by omega)
    simp only [hm, not_true_eq_false, if_false, hr]
    cases hf : r.realloc_failed with
    | some capacity =>
        refine ⟨_, rfl, ?_⟩
        intro run hrun
        simp only [Sum.inl.injEq] at hrun
        subst hrun
        unfold torn_down_once
        constructor
        · simp only [terminate_count_append, hpre]
          simp [terminate_count]
        · simp [List.getLast?_append]
    | none =>
        by_cases h0 : r.final.total_size = 0
        · simp only [h0, if_true]
          refine ⟨_, rfl, ?_⟩
          intro run hrun
          simp only [Sum.inl.injEq] at hrun
          subst hrun
          unfold torn_down_once
          constructor
          · simp only [terminate_count_append, hpre]
            simp [terminate_count]
          · simp [List.getLast?_append]
        · simp only [h0, if_false]
          exact ⟨_, rfl, fun run hrun => by cases hrun⟩
  · simp only [hm, if_true]
    refine ⟨_, rfl, ?_⟩
    intro run hrun
    simp only [Sum.inl.injEq] at hrun
    subst hrun
    unfold torn_down_once
    constructor
    · simp only [terminate_count_append, hpre]
      simp [terminate_count]
    · simp [List.getLast?_append]

theorem read_file_torn_down (e : Env) (pre : List Event) (hpre : terminate_count pre = 0) :
    ∀ run, read_file e pre = .inl run → torn_down_once run := by
  intro run hrun
  unfold read_file at hrun
  simp only at hrun
  split_ifs at hrun
  all_goals
    simp only [Sum.inl.injEq] at hrun
    subst hrun
    unfold torn_down_once
    constructor
    · simp only [terminate_count_append, hpre]
      simp [terminate_count]
    · simp [List.getLast?_append]

/-- C8: every run of `main` ends; if the context was created (two arguments,
creation `OE_OK`) then whatever happens afterwards `oe_terminate_enclave` is
called exactly once and is the last thing the run does; if the run fails
before or at creation it is never called. -/
theorem enclave_torn_down_once (e : Env) :
    ∃ r, main e = some r
      ∧ ((e.argc = 2 ∧ e.create_result = OE_OK) →
          terminate_count r.trace = 1 ∧ r.trace.getLast? = some Event.oe_terminate_enclave)
      ∧ (¬ (e.argc = 2 ∧ e.create_result = OE_OK) → terminate_count r.trace = 0) := by
  unfold main
  by_cases hargc : e.argc = 2
  · by_cases hcr : e.create_result = OE_OK
    · have hpre : terminate_count [Event.oe_create_enclave OE_OK] = 0 := by
        simp [terminate_count]
      have hpre2 : terminate_count ([Event.oe_create_enclave OE_OK] ++ [Event.fclose])
          = 0 := by
        simp [terminate_count]
      simp only [hargc, hcr, ne_eq, not_true_eq_false, if_false, and_self, true_implies,
        not_true_eq_false, false_implies, and_true]
      by_cases hdash : e.argv1 = "-"
      · simp only [hdash, if_true]
        obtain ⟨x, hx, hrun⟩ := read_stdin_torn_down e [Event.oe_create_enclave OE_OK] hpre
        rw [hx]
        cases x with
        | inl run => exact ⟨run, rfl, hrun run rfl⟩
        | inr st =>
            exact ⟨_, rfl, hash_and_print_torn_down e st.buffer st.total_size _ hpre⟩
      · simp only [hdash, if_false]
        have hrun := read_file_torn_down e [Event.oe_create_enclave OE_OK] hpre
        cases hx : read_file e [Event.oe_create_enclave OE_OK] with
        | inl run => exact ⟨run, rfl, hrun run hx⟩
        | inr st =>
            exact ⟨_, rfl, hash_and_print_torn_down e st.buffer st.total_size _ hpre2⟩
    · refine ⟨_, by simp only [hargc, hcr, ne_eq, not_true_eq_false, not_false_eq_true,
        if_true, if_false]; rfl, ?_, ?_⟩
      · intro h; exact absurd h.2 hcr
      · intro _; simp [terminate_count]
  · refine ⟨_, by simp only [hargc, ne_eq, not_false_eq_true, if_true]; rfl, ?_, ?_⟩
    · intro h; exact absurd h.1 hargc
    · intro _; simp [terminate_count]

/-- Witness of C8: the run on standard input delivering the text abc. -/
theorem enclave_torn_down_once_witness :
    ∃ r, main abc_stdin_env = some r ∧ terminate_count r.trace = 1
      ∧ r.trace.getLast? = some Event.oe_terminate_enclave :=
  match enclave_torn_down_once abc_stdin_env with
  | ⟨r, hr, h1, _⟩ => ⟨r, hr, h1 ⟨rfl, rfl⟩⟩

theorem fread_empty (request : Nat) (s : Stream)
    (h : s.pending = [] ∨ s.sched.head? = some 0) : (fread request s).1 = [] := by
  unfold fread
  rcases h with h | h
  · simp [h]
  · cases hs : s.sched with
    | nil => rw [hs] at h; simp at h
    | cons k ks =>
        rw [hs] at h
        simp only [List.head?_cons, Option.some.injEq] at h
        subst h
        simp

theorem stdin_loop_empty (realloc_ok : Nat → Bool) (junk : Nat → Nat) (fuel : Nat)
    (s : Stream) (h : s.pending = [] ∨ s.sched.head? = some 0) :
    stdin_loop realloc_ok junk (fuel + 1) s (initial_buffer junk)
      = some ⟨initial_buffer junk, none, [.read 0 4096 0 4096]⟩ := by
  have hz : (fread ((initial_buffer junk).capacity - (initial_buffer junk).total_size) s).1.length
      = 0 := by
    rw [fread_empty _ s h]; rfl
  rcases loop_pass_cases realloc_ok junk s (initial_buffer junk)
      (initial_buffer_consistent junk) with
    ⟨_, hp⟩ | ⟨hpos, _, _⟩ | ⟨hpos, _, _, _⟩ | ⟨hpos, _, _, _⟩
  · rw [stdin_loop_exit _ _ _ _ _ _ hp]
    rfl
  · omega
  · omega
  · omega

/-- C7: on the unbounded-stream path, when the stream delivers nothing (it is
at its end, or its first read returns 0 bytes), the run ends with exit code 1
and one diagnostic on standard error, without any boundary call and with
nothing on standard output; once the initial buffer is allocated the
diagnostic is the one for empty input. -/
theorem empty_stdin_fails (e : Env) (hargc : e.argc = 2) (hcreate : e.create_result = OE_OK)
    (hdash : e.argv1 = "-") (hempty : e.stdin.pending = [] ∨ e.stdin.sched.head? = some 0) :
    ∃ r, main e = some r ∧ r.exit_code = 1 ∧ ecalls r.trace = [] ∧ stdout_text r.trace = []
      ∧ (stderr_lines r.trace).length = 1
      ∧ (e.malloc_ok = true → stderr_lines r.trace = ["No data read from stdin\n"]) := by
  unfold main read_stdin
  simp only [hargc, hcreate, hdash, ne_eq, not_true_eq_false, if_false, if_true,
    stdin_loop_empty e.realloc_ok e.junk _ e.stdin hempty]
  by_cases hm : e.malloc_ok = true
  · simp only [hm, not_true_eq_false, if_false]
    refine ⟨_, rfl, rfl, rfl, rfl, rfl, fun _ => rfl⟩
  · simp only [hm, not_false_eq_true, if_true]
    refine ⟨_, rfl, rfl, rfl, rfl, rfl, fun h => by simp at h⟩

/-- Witness of C7: standard input at its end from the start. -/
theorem empty_stdin_fails_witness :
    ∃ r, main { abc_stdin_env with stdin := ⟨[], []⟩ } = some r ∧ r.exit_code = 1
      ∧ ecalls r.trace = [] ∧ stdout_text r.trace = []
      ∧ (stderr_lines r.trace).length = 1
      ∧ ({ abc_stdin_env with stdin := ⟨[], []⟩ }.malloc_ok = true →
          stderr_lines r.trace = ["No data read from stdin\n"]) :=
  empty_stdin_fails { abc_stdin_env with stdin := ⟨[], []⟩ } rfl rfl rfl (Or.inl rfl)

theorem ecalls_append (a b : List Event) : ecalls (a ++ b) = ecalls a ++ ecalls b := by
  induction a with
  | nil => rfl
  | cons ev a ih => cases ev <;> simp [ecalls, ih]

theorem ecalls_print_hash (hash : List Nat) : ecalls (print_hash hash) = [] := by
  unfold print_hash
  rw [ecalls_append]
  have h : ∀ l : List Nat,
      ecalls (l.map (fun i => Event.stdout (fmt_02x (hash.getD i 0)))) = [] := by
    intro l
    induction l with
    | nil => rfl
    | cons x l ih => simp only [List.map_cons, ecalls]; exact ih
  rw [h]
  rfl

theorem print_hash_append_left (digest rest : List Nat) (h : digest.length = 32) :
    print_hash (digest ++ rest) = print_hash digest := by
  unfold print_hash
  congr 1
  apply List.map_congr_left
  intro i hi
  have hi2 : i < digest.length := by rw [h]; exact List.mem_range.mp hi
  simp only [List.getD_eq_getElem?_getD]
  rw [List.getElem?_append_left hi2]

theorem read_stdin_collects (e : Env) (b sched : List Nat) (pre : List Event)
    (hmalloc : e.malloc_ok = true) (hre : ∀ c, e.realloc_ok c = true) (hb : b ≠ [])
    (hsched : ∀ k ∈ sched, 0 < k) (hsize : 2 * b.length + 2048 < SIZE_MOD) :
    ∃ st, read_stdin (with_stdin e b sched) pre = some (.inr st)
      ∧ st.total_size = b.length ∧ st.buffer.take st.total_size = b := by
  obtain ⟨r, hr⟩ := stdin_loop_total e.realloc_ok e.junk (b.length + 1) ⟨b, sched⟩
    (initial_buffer e.junk) (by simp)
  obtain ⟨h1, h2, h3⟩ := stdin_loop_collects e.realloc_ok e.junk hre _ _ _ r hr
    (initial_buffer_consistent e.junk) (by show 0 + 1024 < 4096; decide) hsched
    (by show 2 * (0 + b.length) + 2048 < SIZE_MOD; omega)
  have h2b : r.final.total_size = b.length := by
    rw [h2]; show 0 + b.length = b.length; omega
  have h3b : r.final.buffer.take r.final.total_size = b := by
    rw [h3]; rfl
  have hne : r.final.total_size ≠ 0 := by
    rw [h2b]
    intro h0
    exact hb (List.length_eq_zero.mp h0)
  refine ⟨r.final, ?_, h2b, h3b⟩
  unfold read_stdin with_stdin
  simp only [hmalloc, not_true_eq_false, if_false, hr, h1, hne]

theorem read_file_collects (e : Env) (path : String) (b : List Nat) (pre : List Event)
    (hmalloc : e.malloc_ok = true) (hsize : b.length < SIZE_MOD) :
    read_file (with_file e path b) pre = .inr ⟨b, b.length, 4096⟩ := by
  have hmod : (b.length : Int).toNat % SIZE_MOD = b.length := by
    rw [Int.toNat_ofNat]
    exact Nat.mod_eq_of_lt hsize
  have hbuf : write_bytes (fresh e.junk 0 b.length) 0 b = b := by
    unfold write_bytes
    rw [List.drop_of_length_le (by rw [fresh_length]; omega)]
    simp
  unfold read_file with_file
  simp only [not_true_eq_false, if_false, ne_eq, hmalloc, hmod, List.take_length, hbuf]
  simp

theorem boundary_call_take (transport rejected : Nat) (buffer : List Nat) (n : Nat)
    (hash : Option (List Nat)) (hash_size : Nat) :
    boundary_call transport rejected (some buffer) n hash hash_size
      = boundary_call transport rejected (some (buffer.take n)) n hash hash_size := by
  unfold boundary_call
  by_cases ht : transport = OE_OK
  · simp only [ht, if_true]
    by_cases hrej : hash = none ∨ hash_size < 32 ∨ n = 0
    · rw [compute_sha256_reject _ _ _ _ (Or.inr hrej), compute_sha256_reject _ _ _ _ (Or.inr hrej)]
      simp [hrej]
    · cases hash with
      | none => simp at hrej
      | some out =>
          rw [compute_sha256_accept _ _ _ _ (by omega) (by omega),
            compute_sha256_accept _ _ _ _ (by omega) (by omega), List.take_take, Nat.min_self]
          simp
  · simp only [ht, if_false]

theorem boundary_call_valid (rejected : Nat) (buffer out : List Nat) (n : Nat) (hn : n ≠ 0) :
    boundary_call OE_OK rejected (some buffer) n (some out) 32
      = ⟨OE_OK, (compute_sha256 (some buffer) n (some out) 32).hash,
          (compute_sha256 (some buffer) n (some out) 32).ops⟩ := by
  unfold boundary_call
  simp [hn]

theorem hash_and_print_ecalls (e : Env) (buffer : List Nat) (n : Nat) (pre : List Event)
    (hcalls : ecalls pre = []) :
    ecalls (hash_and_print e buffer n pre).trace = [(buffer.take n, n)] := by
  unfold hash_and_print
  dsimp only
  split_ifs
  · simp only [ecalls_append, hcalls]
    simp [ecalls]
  · simp only [ecalls_append, hcalls, ecalls_print_hash]
    simp [ecalls]

theorem hash_and_print_observed (e : Env) (buffer : List Nat) (n : Nat) (pre : List Event)
    (hn : n ≠ 0) (hout : stdout_text pre = []) :
    stdout_text (hash_and_print e buffer n pre).trace
        = (if e.transport = OE_OK then
            stdout_text (print_hash
              ((compute_sha256 (some (buffer.take n)) n (some e.stack_hash) 32).hash.getD []))
          else [])
    ∧ (hash_and_print e buffer n pre).exit_code = (if e.transport = OE_OK then 0 else 1) := by
  unfold hash_and_print
  rw [boundary_call_take]
  by_cases ht : e.transport = OE_OK
  · rw [ht, boundary_call_valid _ _ _ _ hn]
    simp only [if_true, ne_eq, not_true_eq_false, if_false, stdout_text_append, hout]
    simp [stdout_text]
  · unfold boundary_call
    simp only [ht, if_false, ne_eq, not_false_eq_true, if_true, stdout_text_append, hout]
    simp [stdout_text]

theorem main_file_run (e : Env) (path : String) (b : List Nat) (hargc : e.argc = 2)
    (hcreate : e.create_result = OE_OK) (hmalloc : e.malloc_ok = true) (hpath : path ≠ "-")
    (hsize : b.length < SIZE_MOD) :
    main (with_file e path b)
      = some (hash_and_print (with_file e path b) b b.length
          ([Event.oe_create_enclave OE_OK] ++ [Event.fclose])) := by
  have hfile := read_file_collects e path b [Event.oe_create_enclave OE_OK] hmalloc hsize
  unfold main
  have h1 : (with_file e path b).argc = 2 := hargc
  have h2 : (with_file e path b).create_result = OE_OK := hcreate
  have h3 : (with_file e path b).argv1 = path := rfl
  simp only [h1, h2, h3, hpath, ne_eq, not_true_eq_false, if_false, hfile]

/-- C6: for every non-empty byte sequence `b` (short enough that no doubling
overflows `size_t`) and every way of delivering it in reads of at least one
byte, with the allocations succeeding, the unbounded-stream path leaves the
loop with `total_size = |b|` and `buffer[0..total_size) = b`, a reallocation
keeping the bytes already there; the run then makes one boundary call, on
`(b, |b|)`, as the run on a named file holding `b` does, and both end with the
same exit code and the same text on standard output, which is the hex form of
the SHA-256 of `b` when the crossing succeeds. -/
theorem stream_matches_file (e : Env) (b sched : List Nat) (path : String)
    (hargc : e.argc = 2) (hcreate : e.create_result = OE_OK) (hmalloc : e.malloc_ok = true)
    (hre : ∀ c, e.realloc_ok c = true) (hpath : path ≠ "-") (hb : b ≠ [])
    (hsched : ∀ k ∈ sched, 0 < k) (hsize : 2 * b.length + 2048 < SIZE_MOD) :
    (∃ r, stdin_loop e.realloc_ok e.junk (b.length + 1) ⟨b, sched⟩ (initial_buffer e.junk)
        = some r
      ∧ r.realloc_failed = none ∧ r.final.total_size = b.length
      ∧ r.final.buffer.take r.final.total_size = b)
    ∧ (∀ (buffer : List Nat) (capacity : Nat), buffer.length ≤ capacity →
        (realloc e.junk buffer capacity).take buffer.length = buffer)
    ∧ (∃ r1 r2, main (with_stdin e b sched) = some r1 ∧ main (with_file e path b) = some r2
      ∧ ecalls r1.trace = [(b, b.length)] ∧ ecalls r2.trace = [(b, b.length)]
      ∧ stdout_text r1.trace = stdout_text r2.trace ∧ r1.exit_code = r2.exit_code
      ∧ (e.transport = OE_OK →
          stdout_text r1.trace = stdout_text (print_hash (sha256 b)) ∧ r1.exit_code = 0)) := by
  have hne : b.length ≠ 0 := fun h0 => hb (List.length_eq_zero.mp h0)
  refine ⟨?_, ?_, ?_⟩
  · obtain ⟨r, hr⟩ := stdin_loop_total e.realloc_ok e.junk (b.length + 1) ⟨b, sched⟩
      (initial_buffer e.junk) (by simp)
    obtain ⟨h1, h2, h3⟩ := stdin_loop_collects e.realloc_ok e.junk hre _ _ _ r hr
      (initial_buffer_consistent e.junk) (by show 0 + 1024 < 4096; decide) hsched
      (by show 2 * (0 + b.length) + 2048 < SIZE_MOD; omega)
    refine ⟨r, hr, h1, ?_, ?_⟩
    · rw [h2]; show 0 + b.length = b.length; omega
    · rw [h3]; rfl
  · intro buffer capacity hle
    rw [realloc_take e.junk buffer capacity buffer.length hle (Nat.le_refl _), List.take_length]
  · obtain ⟨st, hst, htot, htake⟩ := read_stdin_collects e b sched
      [Event.oe_create_enclave OE_OK] hmalloc hre hb hsched hsize
    have a1 := hash_and_print_ecalls (with_stdin e b sched) st.buffer
      st.total_size [Event.oe_create_enclave OE_OK] rfl
    have b1 := hash_and_print_ecalls (with_file e path b) b b.length
      ([Event.oe_create_enclave OE_OK] ++ [Event.fclose]) rfl
    obtain ⟨a2, a3⟩ := hash_and_print_observed (with_stdin e b sched) st.buffer
      st.total_size [Event.oe_create_enclave OE_OK] (by rw [htot]; exact hne) rfl
    obtain ⟨b2, b3⟩ := hash_and_print_observed (with_file e path b) b b.length
      ([Event.oe_create_enclave OE_OK] ++ [Event.fclose]) hne rfl
    rw [List.take_length] at b1 b2
    refine ⟨hash_and_print (with_stdin e b sched) st.buffer st.total_size
        [Event.oe_create_enclave OE_OK],
      hash_and_print (with_file e path b) b b.length
        ([Event.oe_create_enclave OE_OK] ++ [Event.fclose]), ?_, ?_,
      by rw [a1, htake, htot], b1, ?_, ?_, ?_⟩
    · unfold main
      have h1 : (with_stdin e b sched).argc = 2 := hargc
      have h2 : (with_stdin e b sched).create_result = OE_OK := hcreate
      have h3 : (with_stdin e b sched).argv1 = "-" := rfl
      simp only [h1, h2, h3, ne_eq, not_true_eq_false, if_false, if_true, hst]
    · exact main_file_run e path b hargc hcreate hmalloc hpath (by omega)
    · rw [a2, b2, htake, htot]; rfl
    · rw [a3, b3]; rfl
    · intro ht
      have ht1 : (with_stdin e b sched).transport = OE_OK := ht
      rw [a2, a3, htake, htot]
      simp only [ht1, if_true]
      rw [compute_sha256_accept b b.length _ 32 (by decide) hne, List.take_length]
      refine ⟨?_, trivial⟩
      show stdout_text (print_hash (sha256 b ++ _)) = _
      rw [print_hash_append_left _ _ (sha256_length b)]

/-- Witness of C6: a stream of exactly 5000 bytes delivered in reads of 1, 700
and then as many bytes as each read asks for; all 5000 bytes are in the
buffer, whose capacity has grown beyond the initial 4096. -/
theorem stream_matches_file_witness :
    ∃ r, stdin_loop abc_stdin_env.realloc_ok abc_stdin_env.junk
        ((List.replicate 5000 7).length + 1) ⟨List.replicate 5000 7, [1, 700]⟩
        (initial_buffer abc_stdin_env.junk) = some r
      ∧ r.realloc_failed = none ∧ r.final.total_size = 5000
      ∧ r.final.buffer.take r.final.total_size = List.replicate 5000 7
      ∧ 4096 < r.final.capacity := by
  obtain ⟨r, hr, h1, h2, h3⟩ :=
    (stream_matches_file abc_stdin_env (List.replicate 5000 7) [1, 700] "input.bin" rfl rfl rfl
      (fun _ => rfl) (by decide)
      (List.ne_nil_of_length_pos (by rw [List.length_replicate]; decide)) (by decide)
      (by rw [List.length_replicate]; decide)).1
  rw [List.length_replicate] at h2
  have hno := stdin_loop_no_overflow _ _ _ _ _ r hr (initial_buffer_consistent _)
    (replicate_size_ok _ 5000 7 [1, 700] (by decide))
  have hb := (stdin_loop_bounds _ _ _ _ _ r hr (initial_buffer_consistent _) hno).2.1
  exact ⟨r, hr, h1, h2, h3, by omega⟩

/-- C4, the code at the failing input: on an existing empty file the host
makes the boundary call with input length 0, exits with code 0 and prints as
a digest the 32 bytes that `hash[32]` happened to hold; and whatever status
the stub reports for the rejected call, the call with input length 0 is
made. -/
theorem empty_file_reaches_hashing :
    (main empty_file_env).map (fun r => (r.exit_code, ecalls r.trace, stderr_lines r.trace,
        String.mk (stdout_text r.trace)))
      = some (0, [([], 0)], [],
          "eeeeeeeeeeeeeeeeeeeeeeeeeeeeeeeeeeeeeeeeeeeeeeeeeeeeeeeeeeeeeeee\n")
    ∧ ∀ s, ∃ r, main { empty_file_env with rejected_status := s } = some r
        ∧ ecalls r.trace = [([], 0)] := by
  refine ⟨by decide, ?_⟩
  intro s
  have h := main_file_run { empty_file_env with rejected_status := s } "empty.bin" [] rfl rfl
    rfl (by decide) (by decide)
  exact ⟨_, h, hash_and_print_ecalls _ _ _ _ rfl⟩

end TrustDoc
